import Mathlib

/-!
# Verification of the Python-BPE trainer/tokenizer (src/BPE.py)

Shallow embedding of `BytePairEncoding` from `src/BPE.py`.

Modelling conventions:
* A Python `str` is a `List Char`; a symbol (`Str`) is such a string.
* A Python `dict` is an insertion-ordered association list; `dictSet`
  mirrors `d[k] = v` (update in place, append new keys at the end) and
  `addCount` mirrors `defaultdict(int)`'s `d[k] += n`.
* The frequency table (`Table`) maps rendered word representations
  (symbols joined by single spaces, as produced by `" ".join`) to counts.
* `re.sub(r"(?<!\S)" + re.escape(bigram) + r"(?!\S)", repl, word)` is
  embedded as `reSubWS`: a left-to-right scan over the characters that
  replaces a leftmost, non-overlapping occurrence of the pattern only
  when the previous character is whitespace/absent and the following
  character is whitespace/absent — exactly the semantics of the negative
  lookbehind/lookahead pair used in `perform_merge` and `tokenize`.
* Python's `sorted` (stable) with `key=..., reverse=True` is embedded as
  the stable insertion sort `sortKeyDesc`; stable descending sorts are
  unique, so this agrees with the observable behaviour of `sorted`.
* `list(set(...))` in `create_vocab` enumerates a Python set, whose
  iteration order for strings depends on interpreter hash randomization;
  it is modelled as an explicit parameter constrained by `IsSetList`.
* The word splitter `nltk.wordpunct_tokenize` and file I/O are external
  collaborators (per the spec); training and encoding take the already
  split word list, and the persisted vocabulary is a list of
  (id, symbol) entries as parsed from the JSON file.
* Replacement-template processing that Python's `re.sub` applies to the
  `repl` argument in `tokenize` (backslash escapes) is embedded as
  `replProcess` (`none` = `re.error`).
-/

abbrev Str : Type := List Char

def EOWsym : Str := ['<', '/', 'w', '>']

def UNKsym : Str := ['<', 'U', 'N', 'K', '>']

def PADsym : Str := ['<', 'P', 'A', 'D', '>']

/-- A usable symbol: nonempty and whitespace-free.  Symbols arising in the
pipeline are concatenations of characters of splitter-produced words plus the
reserved marker strings, so they satisfy this. -/
def good (s : Str) : Prop := s ≠ [] ∧ ∀ c ∈ s, c.isWhitespace = false

instance (s : Str) : Decidable (good s) := by
  unfold good
  infer_instance

/-- Lookup in a Python dict (association list, first matching key). -/
def dictGet {K V : Type} [DecidableEq K] (k : K) : List (K × V) → Option V
  | [] => none
  | (k0, v) :: rest => if k = k0 then some v else dictGet k rest

/-- `d[k] = v` on a Python dict: update the existing entry in place, or
append a new entry at the end (insertion order). -/
def dictSet {K V : Type} [DecidableEq K] (k : K) (v : V) : List (K × V) → List (K × V)
  | [] => [(k, v)]
  | (k0, v0) :: rest => if k = k0 then (k0, v) :: rest else (k0, v0) :: dictSet k v rest

/-- `defaultdict(int)`'s `d[k] += n`. -/
def addCount {K : Type} [DecidableEq K] (k : K) (n : Nat) : List (K × Nat) → List (K × Nat)
  | [] => [(k, n)]
  | (k0, v0) :: rest => if k = k0 then (k0, v0 + n) :: rest else (k0, v0) :: addCount k n rest

abbrev Table : Type := List (Str × Nat)

/-- `" ".join(syms)`. -/
def render : List Str → List Char
  | [] => []
  | [s] => s
  | s :: s2 :: rest => s ++ ' ' :: render (s2 :: rest)

/-- Concatenation of the symbols of a representation (the underlying
character content, separators removed). -/
def concatSyms (S : List Str) : List Char := S.flatten

def splitWSAux : List Char → List Char → List Str
  | acc, [] => if acc = [] then [] else [acc.reverse]
  | acc, c :: cs =>
    if c.isWhitespace then
      (if acc = [] then splitWSAux [] cs else acc.reverse :: splitWSAux [] cs)
    else splitWSAux (c :: acc) cs

/-- Python `str.split()`: split on whitespace runs, dropping empty pieces. -/
def splitWS (l : List Char) : List Str := splitWSAux [] l

/-- The negative lookahead `(?!\S)`: the position is at the end of the
string or followed by a whitespace character. -/
def lookOK : List Char → Bool
  | [] => true
  | c :: _ => c.isWhitespace

/-- Structural worker for `reSubWSAux` (fuel ≥ input length makes the
first case unreachable; the wrapper always supplies the input length). -/
def reSubWSFuel (p : Char) (ps rep : List Char) : Nat → Bool → List Char → List Char
  | 0, _, l => l
  | _, _, [] => []
  | fuel + 1, bnd, c :: cs =>
    if bnd && (p :: ps).isPrefixOf (c :: cs) && lookOK (cs.drop ps.length) then
      rep ++ reSubWSFuel p ps rep fuel false (cs.drop ps.length)
    else
      c :: reSubWSFuel p ps rep fuel c.isWhitespace cs

/-- Worker for `reSubWS`; the boundary flag records whether the previous
character of the original string is absent or whitespace (`(?<!\S)`). -/
def reSubWSAux (p : Char) (ps rep : List Char) (b : Bool) (l : List Char) : List Char :=
  reSubWSFuel p ps rep l.length b l

/-- `re.sub(r"(?<!\S)" + re.escape(pat) + r"(?!\S)", rep, ⬝)`: leftmost,
non-overlapping replacement with whitespace-boundary lookarounds.  The
pattern is never empty at any call site (it always contains a space or a
character of a nonempty token). -/
def reSubWS (pat rep : List Char) (b : Bool) (l : List Char) : List Char :=
  match pat with
  | [] => l
  | p :: ps => reSubWSAux p ps rep b l

/-- The boundary-aware bigram replacement of `perform_merge` with the
merged string inserted literally.  Python's `re.sub` escape-processes its
`repl` argument as a template, so this is the replacement only when the
merged pair contains no backslash: `subPairM` below embeds the code
exactly, and `subPairM_eq_subPair` proves the two agree in the
backslash-free case. -/
def subPair (A B : Str) (w : List Char) : List Char :=
  reSubWS (A ++ ' ' :: B) (A ++ B) true w

/-- `" ".join(list(word) + [EOW_TOKEN])`, as a symbol list. -/
def wordRep (w : Str) : List Str := w.map (fun c => [c]) ++ [EOWsym]

/-- `split_into_words_and_create_vocab`, with the splitter externalized:
accumulate `vocab[" ".join(list(word) + [EOW])] += 1` over the word list. -/
def initTable (ws : List Str) : Table :=
  ws.foldl (fun t w => addCount (render (wordRep w)) 1 t) []

/-- Adjacent pairs of a symbol list (the pairs scanned by `count_pairs`
for one word, left to right). -/
def adjPairs : List Str → List (Str × Str)
  | [] => []
  | [_] => []
  | a :: b :: r => (a, b) :: adjPairs (b :: r)

/-- The unsorted pair-count dict of `count_pairs`: iterate the table in
insertion order, scan each word's adjacent symbol pairs left to right,
and accumulate `pairs_pattern[(a, b)] += freq`. -/
def countPairsRaw (t : Table) : List ((Str × Str) × Nat) :=
  t.foldl (fun acc e => (adjPairs (splitWS e.1)).foldl (fun a p => addCount p e.2 a) acc) []

/-- Stable insertion (descending by `key`) — inserts after existing
elements with an equal or larger key. -/
def insKeyDesc {β : Type} (key : β → Nat) (x : β) : List β → List β
  | [] => [x]
  | y :: ys => if key y ≤ key x then x :: y :: ys else y :: insKeyDesc key x ys

/-- Stable sort, descending by `key`: the embedding of Python's
`sorted(l, key=key, reverse=True)` (stable descending sorts are unique). -/
def sortKeyDesc {β : Type} (key : β → Nat) : List β → List β
  | [] => []
  | x :: xs => insKeyDesc key x (sortKeyDesc key xs)

/-- `count_pairs`: the pair-count dict sorted by count, descending,
stably (ties keep first-encountered order). -/
def countPairs (t : Table) : List ((Str × Str) × Nat) :=
  sortKeyDesc (fun e => e.2) (countPairsRaw t)

/-- `perform_merge` with the merged string inserted literally (the
backslash-free case; `performMergeM` embeds the code's template
processing and error path exactly, and `performMergeM_eq` proves the two
agree on tables built from backslash-free corpus words): take the first
pair of the sorted pair dict, rewrite every word with the boundary-aware
substitution, re-accumulating counts into a fresh `defaultdict`, and
return the merged symbol (or `none` when no pairs exist). -/
def performMerge (t : Table) (pairs : List ((Str × Str) × Nat)) : Table × Option Str :=
  match pairs with
  | [] => (t, none)
  | ((A, B), _) :: _ =>
    (t.foldl (fun acc e => addCount (subPair A B e.1) e.2 acc) [], some (A ++ B))

/-- One iteration of the `perform_BPE` loop, threading the list of
recorded merge symbols (the backslash-free case; `bpeStepM` carries the
`re.error` path, and `bpeStepM_eq` proves agreement on tables of
backslash-free corpus words). -/
def bpeStep (st : Table × List Str) : Table × List Str :=
  let res := performMerge st.1 (countPairs st.1)
  (res.1, match res.2 with
    | none => st.2
    | some p => st.2 ++ [p])

/-- The `for i in range(num_merges)` loop of `perform_BPE` (the
backslash-free case; `iterBPEM` carries the `re.error` path, and
`iterBPEM_eq` proves agreement for backslash-free corpora). -/
def iterBPE : Nat → Table × List Str → Table × List Str
  | 0, st => st
  | n + 1, st => iterBPE n (bpeStep st)

/-- The merge symbols recorded by `perform_BPE(num_merges)` on the given
corpus word list, in order (for backslash-free corpora, where training
cannot raise `re.error`). -/
def trainSyms (ws : List Str) (n : Nat) : List Str :=
  (iterBPE n (initTable ws, [])).2

/-- The token list traversed by `create_vocab`: every `word.split()`
token of every table key, in insertion order. -/
def tokensOf (t : Table) : List Str :=
  t.foldl (fun acc e => acc ++ splitWS e.1) []

/-- `l` is a possible value of Python's `list(set(xs))`: duplicate-free
and containing exactly the elements of `xs`.  The enumeration order of a
Python string set depends on interpreter hash randomization, so it is a
parameter of the model. -/
def IsSetList (xs l : List Str) : Prop :=
  l.Nodup ∧ (∀ s ∈ l, s ∈ xs) ∧ ∀ s ∈ xs, s ∈ l

/-- The full symbol list built by `perform_BPE`: the base list
(`create_vocab` of the initial table, i.e. one `list(set(...))`
enumeration `e`), then the recorded merge symbols, then
`[UNK_TOKEN, PAD_TOKEN]` (the backslash-free case; `trainVocabListM`
carries the `re.error` path, and `trainVocabListM_eq` proves agreement
for backslash-free corpora). -/
def trainVocabList (e : List Str) (ws : List Str) (n : Nat) : List Str :=
  e ++ trainSyms ws n ++ [UNKsym, PADsym]

/-- `{vocab[i]: i for i in range(len(vocab))}` of `create_tokenization`
(later indices overwrite earlier ones for duplicate symbols). -/
def stoiOf (V : List Str) : List (Str × Nat) :=
  (List.range V.length).foldl (fun d i => dictSet (V.getD i []) i d) []

/-- `{i: vocab[i] for i in range(len(vocab))}` of `create_tokenization`. -/
def itosOf (V : List Str) : List (Nat × Str) :=
  (List.range V.length).foldl (fun d i => dictSet i (V.getD i []) d) []

/-- `load_tokenization`, applied to the parsed (id, symbol) entries of
the JSON file in file order.  JSON object keys are distinct strings, but
distinct digit strings (e.g. "1" and "01") can parse to the same id, so
the entry list may repeat ids; `int(k)` failures for non-numeric keys are
outside this model.  Returns (itos, stoi, vocab) exactly as the three
assignments do, with no validation. -/
def loadTokenization (entries : List (Nat × Str)) :
    List (Nat × Str) × List (Str × Nat) × List Str :=
  (entries.foldl (fun d e => dictSet e.1 e.2 d) [],
   entries.foldl (fun d e => dictSet e.2 e.1 d) [],
   entries.map (fun e => e.2))

def splitOnFuel (s0 : Char) (srest : List Char) : Nat → List Char → List Char → List Str
  | 0, acc, _ => [acc.reverse]
  | _, acc, [] => [acc.reverse]
  | fuel + 1, acc, c :: cs =>
    if (s0 :: srest).isPrefixOf (c :: cs) then
      acc.reverse :: splitOnFuel s0 srest fuel [] (cs.drop srest.length)
    else
      splitOnFuel s0 srest fuel (c :: acc) cs

def splitOnAux (s0 : Char) (srest : List Char) (acc : List Char) (l : List Char) : List Str :=
  splitOnFuel s0 srest l.length acc l

/-- Python `str.split(sep)` for a nonempty separator (keeps empty
pieces, unlike `str.split()`). -/
def splitOnL (sep : List Char) (l : List Char) : List Str :=
  match sep with
  | [] => [l]
  | s0 :: srest => splitOnAux s0 srest [] l

/-- `tokens_to_str`: look every id up in `itos` (a missing id is a
`KeyError`, modelled as `none`), concatenate the symbols, split the
concatenation on the end-of-word marker, and join with single spaces. -/
def tokensToStr (itos : List (Nat × Str)) (ids : List Nat) : Option (List Char) :=
  match ids.mapM (fun i => dictGet i itos) with
  | none => none
  | some syms => some (render (splitOnL EOWsym (concatSyms syms)))

/-- Python `re.sub` replacement-template processing of the `repl` string:
`\\` collapses to one backslash, `\` + ASCII letter/digit is an error
(reserved escape / invalid group reference), `\` + other char is kept
as both characters, and a trailing `\` is an error. -/
def replProcess : List Char → Option (List Char)
  | [] => some []
  | c :: rest =>
    if c = '\\' then
      match rest with
      | [] => none
      | c2 :: rest' =>
        if c2 = '\\' then (replProcess rest').map (fun r => '\\' :: r)
        else if c2.isAlpha || c2.isDigit then none
        else (replProcess rest').map (fun r => '\\' :: c2 :: r)
    else (replProcess rest).map (fun r => c :: r)

/-- The prefix of `l` before the first occurrence of `sep`, and the part
after it; `none` when `sep` does not occur.  (`re.split(f"({EOW})", tok)`
has length > 1 exactly when this is `some`, and the code uses only the
first two pieces.) -/
def splitFirst (sep : List Char) : List Char → Option (List Char × List Char)
  | [] => none
  | c :: cs =>
    if sep.isPrefixOf (c :: cs) then some ([], (c :: cs).drop sep.length)
    else (splitFirst sep cs).map (fun pr => (c :: pr.1, pr.2))

/-- The search pattern `tokenize` builds for a vocabulary token:
`" ".join(list(split_tok[0]) + [split_tok[1]])` when the token contains
the end-of-word marker, else `" ".join(list(token))`. -/
def tokenPattern (tok : Str) : List Char :=
  match splitFirst EOWsym tok with
  | some (pre, _) => render (pre.map (fun c => [c]) ++ [EOWsym])
  | none => render (tok.map (fun c => [c]))

/-- The effective replacement string for a vocabulary token: the special
`pattern == "\\"` branch substitutes `re.escape(token)` (which template-
processes back to a single backslash); otherwise the token itself is the
template, processed by `replProcess` (`none` = `re.error`). -/
def replFor (tok : Str) : Option (List Char) :=
  if tokenPattern tok = ['\\'] then some ['\\'] else replProcess tok

/-- One step of the token loop in `tokenize`:
`word = re.sub((?<!\S) pattern (?!\S), repl, word)`. -/
def applyTok (w : List Char) (tok : Str) : Option (List Char) :=
  (replFor tok).map (fun r => reSubWS (tokenPattern tok) r true w)

/-- The full token loop of `tokenize` over one word (tokens already
sorted by length, descending). -/
def applyVocab (sorted : List Str) (w : List Char) : Option (List Char) :=
  sorted.foldlM applyTok w

/-- `tokenize`, with the word splitter and case normalization
externalized: every input word is rendered as characters + EOW, rewritten
by every vocabulary token (longest first, stable), split; symbols missing
from `stoi` become `UNK_TOKEN`; the final `stoi` lookups produce the ids
(`none` = `KeyError`/`re.error`). -/
def tokenizeWords (V : List Str) (words : List Str) : Option (List Str × List Nat) :=
  let sorted := sortKeyDesc List.length V
  let stoi := stoiOf V
  match words.mapM (fun w => applyVocab sorted (render (wordRep w))) with
  | none => none
  | some processed =>
    let toks := (processed.map splitWS).flatten
    let toks2 := toks.map (fun s => if (dictGet s stoi).isSome then s else UNKsym)
    match toks2.mapM (fun s => dictGet s stoi) with
    | none => none
    | some ids => some (toks2, ids)

/-- The per-word `re.sub(regex_pattern, pattern, word)` of
`perform_merge`, embedded faithfully: Python escape-processes the `repl`
string `pattern = A ++ B` as a replacement template before substituting
(backslash-backslash collapses to one backslash, backslash + letter or
digit raises `re.error`, a trailing backslash raises `re.error`);
`none` models the raised `re.error`. -/
def subPairM (A B : Str) (w : List Char) : Option (List Char) :=
  (replProcess (A ++ B)).map (fun r => reSubWS (A ++ ' ' :: B) r true w)

/-- `perform_merge`, embedded faithfully: take the first pair of the
sorted pair dict, rewrite every word with the template-processed
boundary-aware substitution — `none` models the `re.error` raised while
rewriting a word — and record the merged symbol `A ++ B` (the raw
string, not the processed template). -/
def performMergeM (t : Table) (pairs : List ((Str × Str) × Nat)) :
    Option (Table × Option Str) :=
  match pairs with
  | [] => some (t, none)
  | ((A, B), _) :: _ =>
    (t.foldlM (fun acc e => (subPairM A B e.1).map (fun w' => addCount w' e.2 acc)) []).map
      (fun t' => (t', some (A ++ B)))

/-- One iteration of the `perform_BPE` loop with the error path. -/
def bpeStepM (st : Table × List Str) : Option (Table × List Str) :=
  (performMergeM st.1 (countPairs st.1)).map (fun res =>
    (res.1, match res.2 with
      | none => st.2
      | some p => st.2 ++ [p]))

/-- The `for i in range(num_merges)` loop of `perform_BPE` with the
error path: an uncaught `re.error` aborts training. -/
def iterBPEM : Nat → Table × List Str → Option (Table × List Str)
  | 0, st => some st
  | n + 1, st =>
    match bpeStepM st with
    | none => none
    | some st' => iterBPEM n st'

/-- The full symbol list built by a faithful `perform_BPE` run: the base
enumeration, the recorded merge symbols, then the reserved tokens —
`none` when training crashes with `re.error`. -/
def trainVocabListM (e ws : List Str) (n : Nat) : Option (List Str) :=
  (iterBPEM n (initTable ws, [])).map (fun st => e ++ st.2 ++ [UNKsym, PADsym])

/-- Leftmost, non-overlapping replacement of the adjacent symbol run `P`
by the single symbol `r` in a symbol list — the symbol-level counterpart
of `reSubWS` on rendered representations. -/
def replaceRunFuel (q : Str) (qs : List Str) (r : Str) : Nat → List Str → List Str
  | 0, S => S
  | _, [] => []
  | fuel + 1, s :: rest =>
    if q = s ∧ qs.isPrefixOf rest then r :: replaceRunFuel q qs r fuel (rest.drop qs.length)
    else s :: replaceRunFuel q qs r fuel rest

def replaceRunAux (q : Str) (qs : List Str) (r : Str) (S : List Str) : List Str :=
  replaceRunFuel q qs r S.length S

def replaceRun (P : List Str) (r : Str) (S : List Str) : List Str :=
  match P with
  | [] => S
  | q :: qs => replaceRunAux q qs r S

/-- Modelled from the spec (§4.3, step 4): merging the pair (A, B)
replaces the two symbols by their concatenation wherever they occur as
whole, adjacent symbols of the representation, and nowhere else. -/
def mergeAdjacent (A B : Str) : List Str → List Str
  | [] => []
  | [s] => [s]
  | s1 :: s2 :: rest =>
    if s1 = A ∧ s2 = B then (A ++ B) :: mergeAdjacent A B rest
    else s1 :: mergeAdjacent A B (s2 :: rest)

/-- Total number of symbol slots in the table (used as termination fuel:
every productive merge strictly decreases it). -/
def slots (t : Table) : Nat := (t.map (fun e => (splitWS e.1).length)).sum

def producibleAux : Nat → Table → Nat
  | 0, _ => 0
  | fuel + 1, t =>
    match countPairs t with
    | [] => 0
    | pr :: rest => producibleAux fuel (performMerge t (pr :: rest)).1 + 1

/-- Modelled from the spec (§8 "Early termination"): the number of
producible merges of a table — how many iterations of the merge loop run
before no adjacent pair remains. -/
def producible (t : Table) : Nat := producibleAux (slots t) t

/-- Maximum count appearing in a pair-count list (0 when empty). -/
def maxKeyVal {β : Type} (key : β → Nat) (l : List β) : Nat :=
  l.foldr (fun e m => max (key e) m) 0

/-- Well-formedness of one table entry with respect to a corpus word
list: the key renders a nonempty list of good symbols whose concatenation
is some corpus word followed by the end-of-word marker, and the count is
positive. -/
def wfEntry (ws : List Str) (e : Str × Nat) : Prop :=
  ∃ S w, (∀ s ∈ S, good s) ∧ S ≠ [] ∧ e.1 = render S ∧
    concatSyms S = w ++ EOWsym ∧ w ∈ ws ∧ 1 ≤ e.2

def wfTable (ws : List Str) (t : Table) : Prop := ∀ e ∈ t, wfEntry ws e

/-- A corpus word as produced by a word splitter: nonempty and
whitespace-free. -/
def goodWord (w : Str) : Prop := w ≠ [] ∧ ∀ c ∈ w, c.isWhitespace = false

/-- Total mass of a frequency table: the sum of all occurrence counts. -/
def tableSum (t : Table) : Nat := (t.map (fun e => e.2)).sum

/-- The extra hygiene the round-trip property needs of a corpus word: no
backslash (so `re.sub` replacement templates are the tokens themselves)
and no embedded end-of-word marker string (so learned tokens contain the
marker only as a final suffix). -/
def niceWord (w : Str) : Prop :=
  goodWord w ∧ ('\\' ∉ w) ∧ ¬ EOWsym <:+: w

/-! ## Basic lemmas about the dict model -/

theorem tableSum_addCount (k : Str) (n : Nat) (d : Table) :
    tableSum (addCount k n d) = tableSum d + n := by
  induction d with
  | nil => simp [tableSum, addCount]
  | cons e rest ih =>
    obtain ⟨k0, v0⟩ := e
    by_cases h : k = k0 <;> simp [tableSum, addCount, h] <;>
      simp [tableSum] at ih <;> omega

theorem tableSum_foldl_addCount (f : Str → Str) :
    ∀ (t : Table) (init : Table),
      tableSum (t.foldl (fun acc e => addCount (f e.1) e.2 acc) init) =
        tableSum init + tableSum t := by
  intro t
  induction t with
  | nil => intro init; simp [tableSum]
  | cons e rest ih =>
    intro init
    simp only [List.foldl_cons]
    rw [ih, tableSum_addCount]
    simp [tableSum]
    omega

theorem dictGet_dictSet_self {K V : Type} [DecidableEq K] (k : K) (v : V) (d : List (K × V)) :
    dictGet k (dictSet k v d) = some v := by
  induction d with
  | nil => simp [dictGet, dictSet]
  | cons e rest ih =>
    obtain ⟨k0, v0⟩ := e
    by_cases h : k = k0 <;> simp [dictGet, dictSet, h, ih]

theorem dictGet_dictSet_ne {K V : Type} [DecidableEq K] {k k' : K} (v : V)
    (d : List (K × V)) (h : k ≠ k') :
    dictGet k (dictSet k' v d) = dictGet k d := by
  induction d with
  | nil => simp [dictGet, dictSet, h]
  | cons e rest ih =>
    obtain ⟨k0, v0⟩ := e
    by_cases h0 : k' = k0
    · subst h0
      simp [dictGet, dictSet, h]
    · by_cases h1 : k = k0 <;> simp [dictGet, dictSet, h0, h1, ih]

theorem dictGet_foldSet_notin {K V : Type} [DecidableEq K] :
    ∀ (es : List (K × V)) (k : K), (∀ v, (k, v) ∉ es) →
      ∀ init, dictGet k (es.foldl (fun d e => dictSet e.1 e.2 d) init) = dictGet k init := by
  intro es
  induction es with
  | nil => intro k _ init; rfl
  | cons e rest ih =>
    intro k h init
    have hk : k ≠ e.1 := by
      intro hk
      apply h e.2
      rw [hk]
      exact List.mem_cons.mpr (Or.inl Prod.mk.eta)
    have hrest : ∀ v, (k, v) ∉ rest := by
      intro v hv
      exact h v (List.mem_cons_of_mem _ hv)
    simp only [List.foldl_cons]
    rw [ih k hrest, dictGet_dictSet_ne _ _ hk]

theorem dictGet_foldSet_mem {K V : Type} [DecidableEq K] :
    ∀ (es : List (K × V)), (es.map Prod.fst).Nodup →
      ∀ {k : K} {v : V}, (k, v) ∈ es →
      ∀ init, dictGet k (es.foldl (fun d e => dictSet e.1 e.2 d) init) = some v := by
  intro es
  induction es with
  | nil => intro _ k v hm; exact absurd hm (List.not_mem_nil _)
  | cons e rest ih =>
    intro hnd k v hm init
    simp only [List.map_cons, List.nodup_cons] at hnd
    rcases List.mem_cons.mp hm with he | hr
    · have hk : k = e.1 := congrArg Prod.fst he
      have hv : v = e.2 := congrArg Prod.snd he
      subst hk; subst hv
      have hrest : ∀ v', (e.1, v') ∉ rest := by
        intro v' hv'
        exact hnd.1 (List.mem_map.mpr ⟨(e.1, v'), hv', rfl⟩)
      simp only [List.foldl_cons]
      rw [dictGet_foldSet_notin rest e.1 hrest, dictGet_dictSet_self]
    · exact ih hnd.2 hr _

/-! ## The stable descending sort of `count_pairs` -/

theorem maxKeyVal_cons {β : Type} (key : β → Nat) (x : β) (xs : List β) :
    maxKeyVal key (x :: xs) = max (key x) (maxKeyVal key xs) := rfl

theorem insKeyDesc_head {β : Type} (key : β → Nat) (x y : β) (ys : List β) :
    (insKeyDesc key x (y :: ys)).head? = some (if key y ≤ key x then x else y) := by
  simp only [insKeyDesc]
  split <;> simp

theorem sortKeyDesc_eq_nil_iff {β : Type} (key : β → Nat) (l : List β) :
    sortKeyDesc key l = [] ↔ l = [] := by
  cases l with
  | nil => simp [sortKeyDesc]
  | cons x xs =>
    simp only [sortKeyDesc]
    constructor
    · intro h
      cases hs : sortKeyDesc key xs with
      | nil => rw [hs] at h; simp [insKeyDesc] at h
      | cons y t =>
        rw [hs] at h
        simp only [insKeyDesc] at h
        split at h <;> simp at h
    · intro h; simp at h

theorem sortKeyDesc_head_key {β : Type} (key : β → Nat) :
    ∀ l : List β, ∀ y, (sortKeyDesc key l).head? = some y → key y = maxKeyVal key l := by
  intro l
  induction l with
  | nil => intro y h; simp [sortKeyDesc] at h
  | cons x xs ih =>
    intro y h
    simp only [sortKeyDesc] at h
    cases hs : sortKeyDesc key xs with
    | nil =>
      have hxs : xs = [] := (sortKeyDesc_eq_nil_iff key xs).mp hs
      rw [hs] at h
      simp [insKeyDesc] at h
      subst h
      simp [hxs, maxKeyVal_cons, maxKeyVal]
    | cons y0 t =>
      rw [hs] at h
      rw [insKeyDesc_head] at h
      have hy0 : key y0 = maxKeyVal key xs := ih y0 (by rw [hs]; rfl)
      rw [maxKeyVal_cons]
      by_cases hc : key y0 ≤ key x
      · simp [hc] at h
        subst h
        rw [← hy0, Nat.max_eq_left hc]
      · simp [hc] at h
        subst h
        rw [← hy0, Nat.max_eq_right (Nat.le_of_not_le hc)]

theorem sortKeyDesc_head_find {β : Type} (key : β → Nat) :
    ∀ l : List β,
      (sortKeyDesc key l).head? = l.find? (fun x => decide (maxKeyVal key l ≤ key x)) := by
  intro l
  induction l with
  | nil => rfl
  | cons x xs ih =>
    simp only [sortKeyDesc]
    by_cases h : maxKeyVal key xs ≤ key x
    · have hmax : maxKeyVal key (x :: xs) = key x := by
        rw [maxKeyVal_cons, Nat.max_eq_left h]
      rw [List.find?_cons]
      have hpx : (decide (maxKeyVal key (x :: xs) ≤ key x)) = true := by
        rw [hmax]; simp
      rw [hpx]
      cases hs : sortKeyDesc key xs with
      | nil => simp [insKeyDesc]
      | cons y0 t =>
        have hy0 : key y0 = maxKeyVal key xs := sortKeyDesc_head_key key xs y0 (by rw [hs]; rfl)
        rw [insKeyDesc_head]
        have : key y0 ≤ key x := by rw [hy0]; exact h
        simp [this]
    · have hlt : key x < maxKeyVal key xs := Nat.lt_of_not_le h
      have hmax : maxKeyVal key (x :: xs) = maxKeyVal key xs := by
        rw [maxKeyVal_cons, Nat.max_eq_right (Nat.le_of_lt hlt)]
      rw [List.find?_cons]
      have hpx : (decide (maxKeyVal key (x :: xs) ≤ key x)) = false := by
        rw [hmax]
        simp
        omega
      rw [hpx]
      simp only [hmax]
      rw [← ih]
      cases hs : sortKeyDesc key xs with
      | nil =>
        have hxs : xs = [] := (sortKeyDesc_eq_nil_iff key xs).mp hs
        subst hxs
        simp [maxKeyVal] at hlt
      | cons y0 t =>
        have hy0 : key y0 = maxKeyVal key xs := sortKeyDesc_head_key key xs y0 (by rw [hs]; rfl)
        rw [insKeyDesc_head]
        have : ¬ key y0 ≤ key x := by rw [hy0]; omega
        simp [this]

/-! ## Generic `Option.mapM` helpers -/

theorem mapM_some_of_forall {α β : Type} (f : α → Option β) (d : β) :
    ∀ l : List α, (∀ a ∈ l, (f a).isSome) →
      l.mapM f = some (l.map (fun a => (f a).getD d)) := by
  intro l
  induction l with
  | nil => intro _; rfl
  | cons a rest ih =>
    intro h
    obtain ⟨v, hv⟩ := Option.isSome_iff_exists.mp (h a (List.mem_cons_self a rest))
    rw [List.mapM_cons, hv, ih (fun a ha => h a (List.mem_cons_of_mem _ ha))]
    simp [hv]

theorem mapM_none_of_exists {α β : Type} (f : α → Option β) :
    ∀ l : List α, (∃ a ∈ l, f a = none) → l.mapM f = none := by
  intro l
  induction l with
  | nil => intro ⟨a, ha, _⟩; exact absurd ha (List.not_mem_nil a)
  | cons a rest ih =>
    intro ⟨b, hb, hnone⟩
    rw [List.mapM_cons]
    rcases List.mem_cons.mp hb with he | hr
    · subst he; rw [hnone]; rfl
    · cases hfa : f a with
      | none => rfl
      | some v => rw [ih ⟨b, hr, hnone⟩]; rfl

/-! ## Claim theorems: C3, C2, C10, C4, C7 -/

/-- C2: the first element of the sorted pair dict built by `count_pairs`
— which is exactly the pair `perform_merge` merges and records — is the
first entry, in the traversal order of `count_pairs` (frequency-table
insertion order, each word's adjacent pairs scanned left to right), whose
aggregate count attains the global maximum; the sort is stable, so ties
resolve to the first-encountered pair. -/
theorem c2_selection_first_max (t : Table) :
    (countPairs t).head? =
      (countPairsRaw t).find?
        (fun e => decide (maxKeyVal (fun x => x.2) (countPairsRaw t) ≤ e.2)) ∧
    (performMerge t (countPairs t)).2 =
      ((countPairs t).head?).map (fun e => e.1.1 ++ e.1.2) := by
  constructor
  · exact sortKeyDesc_head_find (fun e => e.2) (countPairsRaw t)
  · cases h : countPairs t with
    | nil => rfl
    | cons pr rest =>
      obtain ⟨⟨A, B⟩, c⟩ := pr
      rfl

/-- C10 counterexample: the claim requires `load` to fail on files with
duplicate ids or a non-contiguous id range, but `load_tokenization`
performs no validation at all: the non-contiguous file `{"1": "a"}`
loads into normal maps (no id 0 exists), and the duplicate-id file
(keys "1" and "01" both parse to id 1) silently keeps the last entry. -/
theorem c10_counterexample :
    loadTokenization [(1, ['a'])] = ([(1, ['a'])], [(['a'], 1)], [['a']]) ∧
    loadTokenization [(1, ['a']), (1, ['b'])] =
      ([(1, ['b'])], [(['a'], 1), (['b'], 1)], [['a'], ['b']]) := by
  constructor <;> rfl

/-- C10 amended: loading reconstructs both the id→symbol and the
symbol→id map (for every file entry, `itos` maps its id to its symbol
and `stoi` maps its symbol back to its id, provided ids and symbols are
duplicate-free), and reconstructs the vocabulary list; but no validation
is performed — duplicate ids overwrite silently and non-contiguous id
ranges load without error (see the counterexample). -/
theorem c10_load_reconstructs (entries : List (Nat × Str))
    (hids : (entries.map Prod.fst).Nodup) (hsyms : (entries.map Prod.snd).Nodup) :
    (∀ e ∈ entries, dictGet e.1 (loadTokenization entries).1 = some e.2 ∧
       dictGet e.2 (loadTokenization entries).2.1 = some e.1) ∧
    (loadTokenization entries).2.2 = entries.map Prod.snd := by
  refine ⟨?_, rfl⟩
  intro e he
  constructor
  · exact dictGet_foldSet_mem entries hids (Prod.mk.eta ▸ he) []
  · have hswap : entries.foldl (fun d e => dictSet e.2 e.1 d) [] =
        (entries.map (fun e => (e.2, e.1))).foldl (fun d e => dictSet e.1 e.2 d) [] := by
      rw [List.foldl_map]
    show dictGet e.2 (entries.foldl (fun d e => dictSet e.2 e.1 d) []) = some e.1
    rw [hswap]
    apply dictGet_foldSet_mem
    · have : (entries.map (fun e => (e.2, e.1))).map Prod.fst = entries.map Prod.snd := by
        rw [List.map_map]; rfl
      rw [this]; exact hsyms
    · exact List.mem_map.mpr ⟨e, he, rfl⟩

theorem c10_load_reconstructs_witness :
    dictGet 0 (loadTokenization [(0, ['a']), (1, EOWsym)]).1 = some ['a'] ∧
    dictGet EOWsym (loadTokenization [(0, ['a']), (1, EOWsym)]).2.1 = some 1 := by
  have h := c10_load_reconstructs [(0, ['a']), (1, EOWsym)] (by decide) (by decide)
  exact ⟨(h.1 (0, ['a']) (by decide)).1, (h.1 (1, EOWsym) (by decide)).2⟩

/-- C4 (evidence of the code bug): `create_vocab` orders the base symbols
with `list(set(vocab))`, and the enumeration order of a Python string set
varies between interpreter runs (string-hash randomization).  Both lists
below are valid enumerations (`IsSetList`) of the base-symbol set of the
corpus `["ab"]`, yet the two training runs they induce assign different
ids to the symbol "a" — contradicting the claim that two runs with the
same corpus, `num_merges` and `lower_case` yield identical id
assignments. -/
theorem c4_set_order_breaks_determinism :
    IsSetList (tokensOf (initTable [['a', 'b']])) [['a'], ['b'], EOWsym] ∧
    IsSetList (tokensOf (initTable [['a', 'b']])) [['b'], ['a'], EOWsym] ∧
    dictGet ['a'] (stoiOf (trainVocabList [['a'], ['b'], EOWsym] [['a', 'b']] 0)) = some 0 ∧
    dictGet ['a'] (stoiOf (trainVocabList [['b'], ['a'], EOWsym] [['a', 'b']] 0)) = some 1 := by
  unfold IsSetList
  refine ⟨⟨?_, ?_, ?_⟩, ⟨?_, ?_, ?_⟩, ?_, ?_⟩ <;> decide

/-- C7: decoding an id sequence with `tokens_to_str`: when every id
resolves in `itos`, the result is exactly the concatenation of the ids'
symbols, split on the end-of-word marker and joined with single spaces;
when some id does not resolve, the lookup fails (Python `KeyError`,
modelled as `none`) and no value is returned. -/
theorem c7_decode (itos : List (Nat × Str)) (ids : List Nat) :
    ((∀ i ∈ ids, (dictGet i itos).isSome) →
      tokensToStr itos ids =
        some (render (splitOnL EOWsym
          (concatSyms (ids.map (fun i => (dictGet i itos).getD [])))))) ∧
    ((∃ i ∈ ids, dictGet i itos = none) → tokensToStr itos ids = none) := by
  constructor
  · intro h
    unfold tokensToStr
    rw [mapM_some_of_forall (fun i => dictGet i itos) [] ids h]
  · intro h
    unfold tokensToStr
    rw [mapM_none_of_exists (fun i => dictGet i itos) ids h]

theorem c7_decode_witness :
    tokensToStr [(0, ['a', 'b']), (1, EOWsym)] [0, 1] = some ['a', 'b', ' '] ∧
    tokensToStr [(0, ['a', 'b']), (1, EOWsym)] [0, 2] = none := by
  constructor
  · have h := (c7_decode [(0, ['a', 'b']), (1, EOWsym)] [0, 1]).1 (by decide)
    exact h.trans (by decide)
  · exact (c7_decode [(0, ['a', 'b']), (1, EOWsym)] [0, 2]).2 ⟨2, by decide, by rfl⟩

/-! ## Unfolding equations for the fueled workers -/

theorem reSubWSFuel_nil (p : Char) (ps rep : List Char) (f : Nat) (b : Bool) :
    reSubWSFuel p ps rep f b [] = [] := by
  cases f <;> rfl

theorem reSubWSFuel_congr (p : Char) (ps rep : List Char) :
    ∀ (n f1 f2 : Nat) (b : Bool) (l : List Char), l.length ≤ n →
      l.length ≤ f1 → l.length ≤ f2 →
      reSubWSFuel p ps rep f1 b l = reSubWSFuel p ps rep f2 b l := by
  intro n
  induction n with
  | zero =>
    intro f1 f2 b l hn _ _
    have hl : l = [] := List.eq_nil_of_length_eq_zero (Nat.le_zero.mp hn)
    subst hl
    rw [reSubWSFuel_nil, reSubWSFuel_nil]
  | succ n ih =>
    intro f1 f2 b l hn h1 h2
    cases l with
    | nil => rw [reSubWSFuel_nil, reSubWSFuel_nil]
    | cons c cs =>
      simp only [List.length_cons] at hn h1 h2
      obtain ⟨g1, rfl⟩ : ∃ g1, f1 = g1 + 1 := ⟨f1 - 1, by omega⟩
      obtain ⟨g2, rfl⟩ : ∃ g2, f2 = g2 + 1 := ⟨f2 - 1, by omega⟩
      simp only [reSubWSFuel]
      split
      · congr 1
        exact ih g1 g2 false (cs.drop ps.length)
          (by simp only [List.length_drop]; omega)
          (by simp only [List.length_drop]; omega)
          (by simp only [List.length_drop]; omega)
      · congr 1
        exact ih g1 g2 c.isWhitespace cs (by omega) (by omega) (by omega)

theorem reSubWSAux_nil (p : Char) (ps rep : List Char) (b : Bool) :
    reSubWSAux p ps rep b [] = [] := rfl

theorem reSubWSAux_cons (p : Char) (ps rep : List Char) (bnd : Bool) (c : Char) (cs : List Char) :
    reSubWSAux p ps rep bnd (c :: cs) =
      if bnd && (p :: ps).isPrefixOf (c :: cs) && lookOK (cs.drop ps.length) then
        rep ++ reSubWSAux p ps rep false (cs.drop ps.length)
      else
        c :: reSubWSAux p ps rep c.isWhitespace cs := by
  show reSubWSFuel p ps rep (cs.length + 1) bnd (c :: cs) = _
  simp only [reSubWSFuel]
  split
  · congr 1
    exact reSubWSFuel_congr p ps rep cs.length cs.length (cs.drop ps.length).length false _
      (by simp only [List.length_drop]; omega)
      (by simp only [List.length_drop]; omega)
      (le_refl _)
  · rfl

theorem splitOnFuel_nil (s0 : Char) (srest : List Char) (f : Nat) (acc : List Char) :
    splitOnFuel s0 srest f acc [] = [acc.reverse] := by
  cases f <;> rfl

theorem splitOnFuel_congr (s0 : Char) (srest : List Char) :
    ∀ (n f1 f2 : Nat) (acc l : List Char), l.length ≤ n →
      l.length ≤ f1 → l.length ≤ f2 →
      splitOnFuel s0 srest f1 acc l = splitOnFuel s0 srest f2 acc l := by
  intro n
  induction n with
  | zero =>
    intro f1 f2 acc l hn _ _
    have hl : l = [] := List.eq_nil_of_length_eq_zero (Nat.le_zero.mp hn)
    subst hl
    rw [splitOnFuel_nil, splitOnFuel_nil]
  | succ n ih =>
    intro f1 f2 acc l hn h1 h2
    cases l with
    | nil => rw [splitOnFuel_nil, splitOnFuel_nil]
    | cons c cs =>
      simp only [List.length_cons] at hn h1 h2
      obtain ⟨g1, rfl⟩ : ∃ g1, f1 = g1 + 1 := ⟨f1 - 1, by omega⟩
      obtain ⟨g2, rfl⟩ : ∃ g2, f2 = g2 + 1 := ⟨f2 - 1, by omega⟩
      simp only [splitOnFuel]
      split
      · congr 1
        exact ih g1 g2 [] (cs.drop srest.length)
          (by simp only [List.length_drop]; omega)
          (by simp only [List.length_drop]; omega)
          (by simp only [List.length_drop]; omega)
      · exact ih g1 g2 (c :: acc) cs (by omega) (by omega) (by omega)

theorem splitOnAux_nil (s0 : Char) (srest : List Char) (acc : List Char) :
    splitOnAux s0 srest acc [] = [acc.reverse] := rfl

theorem splitOnAux_cons (s0 : Char) (srest : List Char) (acc : List Char)
    (c : Char) (cs : List Char) :
    splitOnAux s0 srest acc (c :: cs) =
      if (s0 :: srest).isPrefixOf (c :: cs) then
        acc.reverse :: splitOnAux s0 srest [] (cs.drop srest.length)
      else
        splitOnAux s0 srest (c :: acc) cs := by
  show splitOnFuel s0 srest (cs.length + 1) acc (c :: cs) = _
  simp only [splitOnFuel]
  split
  · congr 1
    exact splitOnFuel_congr s0 srest cs.length cs.length (cs.drop srest.length).length [] _
      (by simp only [List.length_drop]; omega)
      (by simp only [List.length_drop]; omega)
      (le_refl _)
  · rfl

theorem replaceRunFuel_nil (q : Str) (qs : List Str) (r : Str) (f : Nat) :
    replaceRunFuel q qs r f [] = [] := by
  cases f <;> rfl

theorem replaceRunFuel_congr (q : Str) (qs : List Str) (r : Str) :
    ∀ (n f1 f2 : Nat) (S : List Str), S.length ≤ n →
      S.length ≤ f1 → S.length ≤ f2 →
      replaceRunFuel q qs r f1 S = replaceRunFuel q qs r f2 S := by
  intro n
  induction n with
  | zero =>
    intro f1 f2 S hn _ _
    have hl : S = [] := List.eq_nil_of_length_eq_zero (Nat.le_zero.mp hn)
    subst hl
    rw [replaceRunFuel_nil, replaceRunFuel_nil]
  | succ n ih =>
    intro f1 f2 S hn h1 h2
    cases S with
    | nil => rw [replaceRunFuel_nil, replaceRunFuel_nil]
    | cons s rest =>
      simp only [List.length_cons] at hn h1 h2
      obtain ⟨g1, rfl⟩ : ∃ g1, f1 = g1 + 1 := ⟨f1 - 1, by omega⟩
      obtain ⟨g2, rfl⟩ : ∃ g2, f2 = g2 + 1 := ⟨f2 - 1, by omega⟩
      simp only [replaceRunFuel]
      split
      · congr 1
        exact ih g1 g2 (rest.drop qs.length)
          (by simp only [List.length_drop]; omega)
          (by simp only [List.length_drop]; omega)
          (by simp only [List.length_drop]; omega)
      · congr 1
        exact ih g1 g2 rest (by omega) (by omega) (by omega)

theorem replaceRunAux_nil (q : Str) (qs : List Str) (r : Str) :
    replaceRunAux q qs r [] = [] := rfl

theorem replaceRunAux_cons (q : Str) (qs : List Str) (r : Str) (s : Str) (rest : List Str) :
    replaceRunAux q qs r (s :: rest) =
      if q = s ∧ qs.isPrefixOf rest then r :: replaceRunAux q qs r (rest.drop qs.length)
      else s :: replaceRunAux q qs r rest := by
  show replaceRunFuel q qs r (rest.length + 1) (s :: rest) = _
  simp only [replaceRunFuel]
  split
  · congr 1
    exact replaceRunFuel_congr q qs r rest.length rest.length (rest.drop qs.length).length _
      (by simp only [List.length_drop]; omega)
      (by simp only [List.length_drop]; omega)
      (le_refl _)
  · rfl

/-! ## Rendering symbol lists and the boundary-matching equivalence -/

theorem render_cons_of_ne (s : Str) (S : List Str) (h : S ≠ []) :
    render (s :: S) = s ++ ' ' :: render S := by
  cases S with
  | nil => exact absurd rfl h
  | cons s2 rest => rfl

theorem render_append_of_ne (P T : List Str) (hP : P ≠ []) (hT : T ≠ []) :
    render (P ++ T) = render P ++ ' ' :: render T := by
  induction P with
  | nil => exact absurd rfl hP
  | cons q P' ih =>
    cases hP' : P' with
    | nil =>
      subst hP'
      simp only [List.cons_append, List.nil_append]
      rw [render_cons_of_ne q T hT]
      rfl
    | cons p2 prest =>
      rw [← hP']
      have hP'ne : P' ≠ [] := by rw [hP']; exact List.cons_ne_nil _ _
      have hPT : P' ++ T ≠ [] := by
        intro hc
        exact hP'ne (List.append_eq_nil.mp hc).1
      simp only [List.cons_append]
      rw [render_cons_of_ne q (P' ++ T) hPT, render_cons_of_ne q P' hP'ne, ih hP'ne]
      simp

theorem render_head (P : List Str) (hg : ∀ s ∈ P, good s) (hP : P ≠ []) :
    ∃ pc pcs, render P = pc :: pcs ∧ pc.isWhitespace = false := by
  cases P with
  | nil => exact absurd rfl hP
  | cons q P' =>
    have hq : good q := hg q (List.mem_cons_self _ _)
    obtain ⟨qc, qt, hqe⟩ : ∃ qc qt, q = qc :: qt := by
      cases q with
      | nil => exact absurd rfl hq.1
      | cons qc qt => exact ⟨qc, qt, rfl⟩
    have hqc : qc.isWhitespace = false := by
      apply hq.2
      rw [hqe]
      exact List.mem_cons_self _ _
    cases hP' : P' with
    | nil =>
      subst hP'
      exact ⟨qc, qt, by rw [show render [q] = q from rfl, hqe], hqc⟩
    | cons p2 prest =>
      rw [← hP']
      have : P' ≠ [] := by rw [hP']; exact List.cons_ne_nil _ _
      refine ⟨qc, qt ++ ' ' :: render P', ?_, hqc⟩
      rw [render_cons_of_ne q P' this, hqe]
      rfl

theorem replaceRun_ne_nil (P : List Str) (r : Str) (S : List Str) (hS : S ≠ []) :
    replaceRun P r S ≠ [] := by
  cases S with
  | nil => exact absurd rfl hS
  | cons s rest =>
    cases P with
    | nil => exact List.cons_ne_nil _ _
    | cons q qs =>
      show replaceRunAux q qs r (s :: rest) ≠ []
      rw [replaceRunAux_cons]
      split <;> exact List.cons_ne_nil _ _

/-- Character-level alignment: if the rendered pattern `q ++ x` is a
prefix of the rendered target `s ++ y` (with `x`, `y` empty or starting
with the separator), the head symbols are whitespace-free, and the
lookahead holds, then the head symbols agree — a match can neither stop
inside a target symbol nor extend past one. -/
theorem align_heads (q s x y : List Char)
    (hqws : ∀ c ∈ q, c.isWhitespace = false)
    (hsws : ∀ c ∈ s, c.isWhitespace = false)
    (hx : x = [] ∨ ∃ x', x = ' ' :: x') (hy : y = [] ∨ ∃ y', y = ' ' :: y')
    (hpre : (q ++ x) <+: (s ++ y))
    (hlook : lookOK ((s ++ y).drop (q ++ x).length) = true) : q = s := by
  have hqp : q <+: s ++ y := (List.prefix_append q x).trans hpre
  have hsp : s <+: s ++ y := List.prefix_append s y
  rcases List.prefix_or_prefix_of_prefix hqp hsp with hqs | hsq
  · obtain ⟨d, hd⟩ := hqs
    cases hdc : d with
    | nil => rw [hdc, List.append_nil] at hd; exact hd
    | cons d0 drest =>
      exfalso
      have hd0 : d0.isWhitespace = false := by
        apply hsws
        rw [← hd, hdc]
        exact List.mem_append_right q (List.mem_cons_self _ _)
      subst hd
      have hpre' : x <+: (d ++ y) := by
        rw [List.append_assoc] at hpre
        exact (List.prefix_append_right_inj q).mp hpre
      rcases hx with hxe | ⟨x', hxe⟩
      · subst hxe
        have harith : ((q ++ d) ++ y).drop (q ++ ([] : List Char)).length = d ++ y := by
          simp only [List.append_nil, List.append_assoc]
          exact List.drop_left q (d ++ y)
        rw [harith, hdc] at hlook
        simp only [List.cons_append, lookOK] at hlook
        rw [hd0] at hlook
        exact Bool.false_ne_true hlook
      · subst hxe
        rw [hdc] at hpre'
        simp only [List.cons_append] at hpre'
        rw [List.cons_prefix_cons] at hpre'
        have : (' ' : Char).isWhitespace = true := by decide
        rw [hpre'.1, hd0] at this
        exact Bool.false_ne_true this
  · obtain ⟨d, hd⟩ := hsq
    cases hdc : d with
    | nil => rw [hdc, List.append_nil] at hd; exact hd.symm
    | cons d0 drest =>
      exfalso
      have hd0 : d0.isWhitespace = false := by
        apply hqws
        rw [← hd, hdc]
        exact List.mem_append_right s (List.mem_cons_self _ _)
      subst hd
      have hpre' : (d ++ x) <+: y := by
        rw [List.append_assoc] at hpre
        exact (List.prefix_append_right_inj s).mp hpre
      rcases hy with hye | ⟨y', hye⟩
      · subst hye
        rw [hdc] at hpre'
        have := hpre'.length_le
        simp at this
      · subst hye
        rw [hdc] at hpre'
        simp only [List.cons_append] at hpre'
        rw [List.cons_prefix_cons] at hpre'
        have : (' ' : Char).isWhitespace = true := by decide
        rw [← hpre'.1, hd0] at this
        exact Bool.false_ne_true this

theorem prefix_imp_match (P S : List Str) (hP : P ≠ []) (h : P <+: S) :
    (render P) <+: (render S) ∧ lookOK ((render S).drop (render P).length) = true := by
  obtain ⟨T, hT⟩ := h
  cases hTc : T with
  | nil =>
    subst hTc
    rw [List.append_nil] at hT
    subst hT
    exact ⟨List.prefix_refl _, by rw [List.drop_length]; rfl⟩
  | cons t0 trest =>
    have hTne : T ≠ [] := by rw [hTc]; exact List.cons_ne_nil _ _
    subst hT
    rw [render_append_of_ne P T hP hTne]
    constructor
    · exact List.prefix_append _ _
    · rw [List.drop_left]
      rfl

theorem match_imp_prefix :
    ∀ (P : List Str), (∀ u ∈ P, good u) → P ≠ [] →
    ∀ (S : List Str), (∀ u ∈ S, good u) →
    (render P) <+: (render S) →
    lookOK ((render S).drop (render P).length) = true →
    P <+: S := by
  intro P
  induction P with
  | nil => intro _ h; exact absurd rfl h
  | cons q P' ih =>
    intro hPg _ S hSg hpre hlook
    cases S with
    | nil =>
      exfalso
      obtain ⟨pc, pcs, hrP, _⟩ := render_head (q :: P') hPg (List.cons_ne_nil _ _)
      rw [hrP] at hpre
      have := hpre.length_le
      simp [render] at this
    | cons s S' =>
      have hq : good q := hPg q (List.mem_cons_self _ _)
      have hs : good s := hSg s (List.mem_cons_self _ _)
      by_cases hP' : P' = []
      · subst hP'
        have hrP : render [q] = q ++ [] := by simp [render]
        have hqs : q = s := by
          by_cases hS' : S' = []
          · subst hS'
            refine align_heads q s [] [] hq.2 hs.2 (Or.inl rfl) (Or.inl rfl) ?_ ?_
            · rw [← hrP]; simpa [render] using hpre
            · rw [← hrP]; simpa [render] using hlook
          · refine align_heads q s [] (' ' :: render S') hq.2 hs.2 (Or.inl rfl)
              (Or.inr ⟨render S', rfl⟩) ?_ ?_
            · rw [← hrP, ← render_cons_of_ne s S' hS']; exact hpre
            · rw [← hrP, ← render_cons_of_ne s S' hS']; exact hlook
        exact List.cons_prefix_cons.mpr ⟨hqs, List.nil_prefix⟩
      · by_cases hS' : S' = []
        · exfalso
          subst hS'
          rw [render_cons_of_ne q P' hP'] at hpre
          have hsp : (' ' : Char) ∈ s := by
            obtain ⟨d, hd⟩ := hpre
            have hmem : (' ' : Char) ∈ (q ++ ' ' :: render P') ++ d := by simp
            rw [hd] at hmem
            simpa [render] using hmem
          have := hs.2 ' ' hsp
          simp at this
        · have hrP : render (q :: P') = q ++ ' ' :: render P' := render_cons_of_ne q P' hP'
          have hrS : render (s :: S') = s ++ ' ' :: render S' := render_cons_of_ne s S' hS'
          rw [hrP, hrS] at hpre hlook
          have hqs : q = s :=
            align_heads q s (' ' :: render P') (' ' :: render S') hq.2 hs.2
              (Or.inr ⟨render P', rfl⟩) (Or.inr ⟨render S', rfl⟩) hpre hlook
          subst hqs
          have hpre' : render P' <+: render S' := by
            have h1 := (List.prefix_append_right_inj q).mp hpre
            exact (List.cons_prefix_cons.mp h1).2
          have hlook' : lookOK ((render S').drop (render P').length) = true := by
            rw [List.length_append] at hlook
            rw [List.drop_append] at hlook
            simp only [List.length_cons] at hlook
            rwa [List.drop_succ_cons] at hlook
          have := ih (fun u hu => hPg u (List.mem_cons_of_mem _ hu)) hP' S'
            (fun u hu => hSg u (List.mem_cons_of_mem _ hu)) hpre' hlook'
          exact List.cons_prefix_cons.mpr ⟨rfl, this⟩

theorem reSubWSAux_false_block (pc : Char) (pcs r : List Char) :
    ∀ (blk : List Char), (∀ c ∈ blk, c.isWhitespace = false) →
    ∀ rest, reSubWSAux pc pcs r false (blk ++ rest) =
      blk ++ reSubWSAux pc pcs r false rest := by
  intro blk
  induction blk with
  | nil => intro _ rest; simp
  | cons c blk' ih =>
    intro hws rest
    simp only [List.cons_append]
    rw [reSubWSAux_cons]
    have hif : (false && (pc :: pcs).isPrefixOf (c :: (blk' ++ rest)) &&
        lookOK ((blk' ++ rest).drop pcs.length)) = false := by simp
    rw [hif, if_neg Bool.false_ne_true]
    rw [hws c (List.mem_cons_self _ _)]
    rw [ih (fun a ha => hws a (List.mem_cons_of_mem _ ha)) rest]

theorem reSubWSAux_false_space (pc : Char) (pcs r rest : List Char) :
    reSubWSAux pc pcs r false (' ' :: rest) = ' ' :: reSubWSAux pc pcs r true rest := by
  rw [reSubWSAux_cons]
  have hif : (false && (pc :: pcs).isPrefixOf (' ' :: rest) &&
      lookOK (rest.drop pcs.length)) = false := by simp
  rw [hif, if_neg Bool.false_ne_true]
  have hws : (' ' : Char).isWhitespace = true := by decide
  rw [hws]

theorem reSubWSAux_skip (pc : Char) (pcs r : List Char) (s : Str) (hs : good s)
    (tail : List Char)
    (hnm : ¬(((pc :: pcs).isPrefixOf (s ++ tail)) = true ∧
        lookOK ((s ++ tail).drop (pc :: pcs).length) = true)) :
    reSubWSAux pc pcs r true (s ++ tail) = s ++ reSubWSAux pc pcs r false tail := by
  obtain ⟨c, s', rfl⟩ : ∃ c s', s = c :: s' := by
    cases s with
    | nil => exact absurd rfl hs.1
    | cons c s' => exact ⟨c, s', rfl⟩
  simp only [List.cons_append]
  rw [reSubWSAux_cons]
  have hcond : (true && (pc :: pcs).isPrefixOf (c :: (s' ++ tail)) &&
      lookOK ((s' ++ tail).drop pcs.length)) = false := by
    by_contra hc
    apply hnm
    simp only [Bool.not_eq_false, Bool.and_eq_true, Bool.true_and] at hc
    refine ⟨by simpa using hc.1, ?_⟩
    simp only [List.cons_append, List.length_cons]
    rw [List.drop_succ_cons]
    exact hc.2
  rw [hcond, if_neg Bool.false_ne_true]
  rw [hs.2 c (List.mem_cons_self _ _)]
  rw [reSubWSAux_false_block pc pcs r s' (fun a ha => hs.2 a (List.mem_cons_of_mem _ ha)) tail]

/-- The boundary-aware regex substitution, applied to a rendered symbol
list, is exactly the symbol-level replacement of whole adjacent runs:
`re.sub((?<!\S) render P (?!\S), r, " ".join S) = " ".join (replaceRun P r S)`. -/
theorem reSub_render :
    ∀ (n : Nat) (S : List Str), S.length ≤ n → (∀ u ∈ S, good u) →
    ∀ (P : List Str), (∀ u ∈ P, good u) → P ≠ [] → ∀ (r : Str),
    reSubWS (render P) r true (render S) = render (replaceRun P r S) := by
  intro n
  induction n with
  | zero =>
    intro S hn _ P _ hP r
    have hS : S = [] := List.eq_nil_of_length_eq_zero (Nat.le_zero.mp hn)
    subst hS
    cases P with
    | nil => exact absurd rfl hP
    | cons q qs =>
      show reSubWS (render (q :: qs)) r true (render []) = render (replaceRunAux q qs r [])
      rw [replaceRunAux_nil]
      cases hrp : render (q :: qs) with
      | nil => rfl
      | cons pc pcs => exact reSubWSAux_nil pc pcs r true
  | succ n ih =>
    intro S hn hSg P hPg hP r
    cases S with
    | nil =>
      cases P with
      | nil => exact absurd rfl hP
      | cons q qs =>
        show reSubWS (render (q :: qs)) r true (render []) = render (replaceRunAux q qs r [])
        rw [replaceRunAux_nil]
        cases hrp : render (q :: qs) with
        | nil => rfl
        | cons pc pcs => exact reSubWSAux_nil pc pcs r true
    | cons s S' =>
      obtain ⟨q, qs, rfl⟩ : ∃ q qs, P = q :: qs := by
        cases P with
        | nil => exact absurd rfl hP
        | cons q qs => exact ⟨q, qs, rfl⟩
      obtain ⟨pc, pcs, hrP, _⟩ := render_head (q :: qs) hPg hP
      by_cases hm : (q :: qs) <+: (s :: S')
      · obtain ⟨T, hT⟩ := hm
        by_cases hTe : T = []
        · -- the whole representation is the pattern
          subst hTe
          rw [List.append_nil] at hT
          rw [← hT, hrP]
          show reSubWSAux pc pcs r true (pc :: pcs) = render (replaceRunAux q qs r (q :: qs))
          rw [reSubWSAux_cons]
          have hcond : (true && (pc :: pcs).isPrefixOf (pc :: pcs) &&
              lookOK (pcs.drop pcs.length)) = true := by
            rw [List.isPrefixOf_iff_prefix.mpr (List.prefix_refl _)]
            rw [List.drop_length]
            rfl
          rw [hcond, if_pos rfl, List.drop_length, reSubWSAux_nil, List.append_nil]
          rw [replaceRunAux_cons]
          rw [if_pos ⟨rfl, List.isPrefixOf_iff_prefix.mpr (List.prefix_refl _)⟩]
          rw [List.drop_length, replaceRunAux_nil]
          rfl
        · -- the pattern matches a proper initial run of the symbols
          have hrS : render (s :: S') = render (q :: qs) ++ ' ' :: render T := by
            rw [← hT, render_append_of_ne _ _ hP hTe]
          rw [hrS, hrP]
          show reSubWSAux pc pcs r true ((pc :: pcs) ++ ' ' :: render T) =
            render (replaceRunAux q qs r (s :: S'))
          simp only [List.cons_append]
          rw [reSubWSAux_cons]
          have hdrop : ((pcs ++ ' ' :: render T).drop pcs.length) = ' ' :: render T :=
            List.drop_left pcs _
          have hcond : (true && (pc :: pcs).isPrefixOf (pc :: (pcs ++ ' ' :: render T)) &&
              lookOK ((pcs ++ ' ' :: render T).drop pcs.length)) = true := by
            rw [hdrop]
            rw [List.isPrefixOf_iff_prefix.mpr
              (List.cons_prefix_cons.mpr ⟨rfl, List.prefix_append _ _⟩)]
            rfl
          rw [hcond, if_pos rfl, hdrop, reSubWSAux_false_space]
          have hTgood : ∀ u ∈ T, good u := by
            intro u hu
            apply hSg
            rw [← hT]
            exact List.mem_append_right _ hu
          have hTlen : T.length ≤ n := by
            have hlen := congrArg List.length hT
            simp only [List.length_append, List.length_cons] at hlen hn
            omega
          have hrec := ih T hTlen hTgood (q :: qs) hPg hP r
          rw [hrP] at hrec
          have hrec' : reSubWSAux pc pcs r true (render T) =
              render (replaceRun (q :: qs) r T) := hrec
          rw [hrec']
          have hSrw : s :: S' = q :: (qs ++ T) := by rw [← hT]; rfl
          rw [hSrw, replaceRunAux_cons]
          rw [if_pos ⟨rfl, List.isPrefixOf_iff_prefix.mpr (List.prefix_append _ _)⟩]
          rw [List.drop_left]
          rw [render_cons_of_ne r (replaceRunAux q qs r T)
            (replaceRun_ne_nil (q :: qs) r T hTe)]
          rfl
      · -- no symbol-level match at the first position
        have hnmc : ¬(((pc :: pcs).isPrefixOf (render (s :: S'))) = true ∧
            lookOK ((render (s :: S')).drop (pc :: pcs).length) = true) := by
          intro hc
          apply hm
          apply match_imp_prefix (q :: qs) hPg hP (s :: S') hSg
          · rw [hrP]
            exact List.isPrefixOf_iff_prefix.mp hc.1
          · rw [hrP]
            exact hc.2
        have hsg : good s := hSg s (List.mem_cons_self _ _)
        by_cases hS' : S' = []
        · subst hS'
          rw [hrP]
          show reSubWSAux pc pcs r true (render [s]) = render (replaceRunAux q qs r [s])
          have h1 := reSubWSAux_skip pc pcs r s hsg [] (by
            rw [List.append_nil]
            intro hc
            exact hnmc (by simpa [render] using hc))
          rw [List.append_nil] at h1
          have hgoal : reSubWSAux pc pcs r true (render [s]) = s := by
            rw [show render [s] = s from rfl, h1, reSubWSAux_nil, List.append_nil]
          rw [hgoal]
          have hcond2 : ¬(q = s ∧ qs.isPrefixOf ([] : List Str)) := by
            intro hand
            apply hm
            have hqs : qs = [] := by
              have := List.isPrefixOf_iff_prefix.mp hand.2
              simpa using this
            rw [hand.1, hqs]
          rw [replaceRunAux_cons, if_neg hcond2, replaceRunAux_nil]
          rfl
        · have hrS : render (s :: S') = s ++ ' ' :: render S' := render_cons_of_ne s S' hS'
          rw [hrP, hrS]
          show reSubWSAux pc pcs r true (s ++ ' ' :: render S') =
            render (replaceRunAux q qs r (s :: S'))
          rw [reSubWSAux_skip pc pcs r s hsg (' ' :: render S') (by
            intro hc
            apply hnmc
            rw [hrS]
            exact hc)]
          rw [reSubWSAux_false_space]
          have hS'len : S'.length ≤ n := by
            simp only [List.length_cons] at hn
            omega
          have hrec := ih S' hS'len (fun u hu => hSg u (List.mem_cons_of_mem _ hu))
            (q :: qs) hPg hP r
          rw [hrP] at hrec
          have hrec' : reSubWSAux pc pcs r true (render S') =
              render (replaceRun (q :: qs) r S') := hrec
          rw [hrec']
          have hcond2 : ¬(q = s ∧ qs.isPrefixOf S') := by
            intro hand
            exact hm (List.cons_prefix_cons.mpr
              ⟨hand.1, List.isPrefixOf_iff_prefix.mp hand.2⟩)
          rw [replaceRunAux_cons, if_neg hcond2]
          rw [render_cons_of_ne s (replaceRunAux q qs r S')
            (replaceRun_ne_nil (q :: qs) r S' hS')]
          rfl

theorem mergeAdjacent_eq_replaceRun (A B : Str) :
    ∀ (n : Nat) (S : List Str), S.length ≤ n →
      mergeAdjacent A B S = replaceRun [A, B] (A ++ B) S := by
  intro n
  induction n with
  | zero =>
    intro S hn
    have hS : S = [] := List.eq_nil_of_length_eq_zero (Nat.le_zero.mp hn)
    subst hS
    rfl
  | succ n ih =>
    intro S hn
    match S with
    | [] => rfl
    | [s] =>
      show [s] = replaceRunAux A [B] (A ++ B) [s]
      rw [replaceRunAux_cons]
      rw [if_neg (by
        intro hand
        have := List.isPrefixOf_iff_prefix.mp hand.2
        have := this.length_le
        simp at this)]
      rw [replaceRunAux_nil]
    | s1 :: s2 :: rest =>
      simp only [List.length_cons] at hn
      have hpre : ([B].isPrefixOf (s2 :: rest)) = (B == s2 : Bool) := by
        show (B == s2 && List.isPrefixOf [] rest) = _
        simp [List.isPrefixOf]
      show mergeAdjacent A B (s1 :: s2 :: rest) = replaceRunAux A [B] (A ++ B) (s1 :: s2 :: rest)
      rw [replaceRunAux_cons]
      by_cases hc : s1 = A ∧ s2 = B
      · rw [if_pos (by
          refine ⟨hc.1.symm, ?_⟩
          rw [hpre, hc.2]
          exact beq_self_eq_true B)]
        simp only [mergeAdjacent, if_pos hc]
        rw [ih rest (by omega)]
        have hdrop : ((s2 :: rest).drop ([B] : List Str).length) = rest := by simp
        rw [hdrop]
        rfl
      · rw [if_neg (by
          intro hand
          apply hc
          refine ⟨hand.1.symm, ?_⟩
          rw [hpre] at hand
          exact (eq_of_beq hand.2).symm)]
        simp only [mergeAdjacent, if_neg hc]
        rw [ih (s2 :: rest) (by simp; omega)]
        rfl

/-! ## The id↔symbol maps of `create_tokenization` -/

theorem dictGet_foldSet_some {K V : Type} [DecidableEq K] :
    ∀ (es : List (K × V)) (init : List (K × V)) (k : K) (v : V),
      dictGet k (es.foldl (fun d e => dictSet e.1 e.2 d) init) = some v →
      (k, v) ∈ es ∨ dictGet k init = some v := by
  intro es
  induction es with
  | nil => intro init k v h; exact Or.inr h
  | cons e rest ih =>
    intro init k v h
    simp only [List.foldl_cons] at h
    rcases ih (dictSet e.1 e.2 init) k v h with hmem | hinit
    · exact Or.inl (List.mem_cons_of_mem _ hmem)
    · by_cases hk : k = e.1
      · subst hk
        rw [dictGet_dictSet_self] at hinit
        have hv : v = e.2 := (Option.some.inj hinit).symm
        subst hv
        exact Or.inl (List.mem_cons.mpr (Or.inl Prod.mk.eta.symm))
      · rw [dictGet_dictSet_ne _ _ hk] at hinit
        exact Or.inr hinit

theorem map_getD_range (V : List Str) :
    (List.range V.length).map (fun i => V.getD i []) = V := by
  induction V with
  | nil => rfl
  | cons v V' ih =>
    rw [List.length_cons, List.range_succ_eq_map, List.map_cons, List.map_map]
    show v :: List.map (fun i => V'.getD i []) (List.range V'.length) = v :: V'
    rw [ih]

theorem itosOf_eq_foldl (V : List Str) :
    itosOf V = ((List.range V.length).map (fun i => (i, V.getD i []))).foldl
      (fun d e => dictSet e.1 e.2 d) [] := by
  rw [List.foldl_map]
  rfl

theorem stoiOf_eq_foldl (V : List Str) :
    stoiOf V = ((List.range V.length).map (fun i => (V.getD i [], i))).foldl
      (fun d e => dictSet e.1 e.2 d) [] := by
  rw [List.foldl_map]
  rfl

theorem itosOf_get (V : List Str) (i : Nat) :
    dictGet i (itosOf V) = if i < V.length then some (V.getD i []) else none := by
  rw [itosOf_eq_foldl]
  by_cases hi : i < V.length
  · rw [if_pos hi]
    apply dictGet_foldSet_mem
    · have : ((List.range V.length).map (fun i => (i, V.getD i []))).map Prod.fst =
          List.range V.length := by
        rw [List.map_map]; exact List.map_id _
      rw [this]
      exact List.nodup_range _
    · exact List.mem_map.mpr ⟨i, List.mem_range.mpr hi, rfl⟩
  · rw [if_neg hi]
    rw [dictGet_foldSet_notin]
    · rfl
    · intro v hv
      obtain ⟨j, hj, hje⟩ := List.mem_map.mp hv
      have : j = i := congrArg Prod.fst hje
      subst this
      exact hi (List.mem_range.mp hj)

theorem stoiOf_get (V : List Str) (hnd : V.Nodup) (i : Nat) (s : Str) :
    dictGet s (stoiOf V) = some i ↔ (i < V.length ∧ V.getD i [] = s) := by
  have hkeys : ((List.range V.length).map (fun i => (V.getD i [], i))).map Prod.fst = V := by
    rw [List.map_map]
    exact map_getD_range V
  constructor
  · intro h
    rw [stoiOf_eq_foldl] at h
    rcases dictGet_foldSet_some _ [] s i h with hmem | hbad
    · obtain ⟨j, hj, hje⟩ := List.mem_map.mp hmem
      have hji : j = i := congrArg Prod.snd hje
      subst hji
      exact ⟨List.mem_range.mp hj, congrArg Prod.fst hje⟩
    · exact absurd hbad (by simp [dictGet])
  · intro ⟨hi, hs⟩
    rw [stoiOf_eq_foldl]
    apply dictGet_foldSet_mem
    · rw [hkeys]; exact hnd
    · exact List.mem_map.mpr ⟨i, List.mem_range.mpr hi, by rw [hs]⟩

/-- C9 (amended): when the symbol list accumulated by a training run is
duplicate-free, `create_tokenization` builds mutually inverse bijections:
`itos` maps id `i` to symbol `s` exactly when `stoi` maps `s` back to
`i` (and exactly the ids `0..N-1` are assigned).  Duplicate-freeness is a
genuine hypothesis: the counterexample shows a training run whose merge
product collides with the reserved end-of-word symbol, breaking the
bijection. -/
theorem c9_vocab_bijection (e ws : List Str) (n : Nat)
    (hnd : (trainVocabList e ws n).Nodup) (i : Nat) (s : Str) :
    dictGet i (itosOf (trainVocabList e ws n)) = some s ↔
      dictGet s (stoiOf (trainVocabList e ws n)) = some i := by
  rw [itosOf_get, stoiOf_get _ hnd]
  by_cases hi : i < (trainVocabList e ws n).length
  · rw [if_pos hi]
    constructor
    · intro h
      refine ⟨hi, by injection h⟩
    · intro ⟨_, h⟩
      rw [h]
  · rw [if_neg hi]
    constructor
    · intro h; exact absurd h (by simp)
    · intro ⟨h, _⟩; exact absurd h hi

theorem c9_vocab_bijection_witness :
    dictGet (['a'] : Str) (stoiOf (trainVocabList [['a'], ['b'], EOWsym] [['a', 'b']] 0)) =
      some 0 := by
  exact (c9_vocab_bijection [['a'], ['b'], EOWsym] [['a', 'b']] 0 (by decide) 0 ['a']).mp
    (by decide)

/-- C9 counterexample: the corpus word "</w>" drives three merges whose
third product is the string "</w>" itself, so the accumulated symbol
list contains "</w>" twice (as base end-of-word symbol, id 4, and as
merge product, id 7); `stoi` silently keeps the later id, so `itos` and
`stoi` are not mutually inverse: `itos[4] = "</w>"` but
`stoi["</w>"] = 7`.  The base list used is a valid `list(set(...))`
enumeration of the base symbols. -/
theorem c9_counterexample :
    IsSetList (tokensOf (initTable [['<', '/', 'w', '>']]))
      [['<'], ['/'], ['w'], ['>'], EOWsym] ∧
    ¬ (trainVocabList [['<'], ['/'], ['w'], ['>'], EOWsym] [['<', '/', 'w', '>']] 3).Nodup ∧
    dictGet 4 (itosOf (trainVocabList [['<'], ['/'], ['w'], ['>'], EOWsym]
      [['<', '/', 'w', '>']] 3)) = some EOWsym ∧
    dictGet EOWsym (stoiOf (trainVocabList [['<'], ['/'], ['w'], ['>'], EOWsym]
      [['<', '/', 'w', '>']] 3)) = some 7 := by
  unfold IsSetList
  refine ⟨⟨?_, ?_, ?_⟩, ?_, ?_, ?_⟩ <;> decide

/-! ## `str.split()` of a rendered representation recovers the symbols -/

theorem splitWSAux_through :
    ∀ (s : List Char), (∀ c ∈ s, c.isWhitespace = false) →
    ∀ (acc rest : List Char), splitWSAux acc (s ++ rest) = splitWSAux (s.reverse ++ acc) rest := by
  intro s
  induction s with
  | nil => intro _ acc rest; simp
  | cons c s' ih =>
    intro hws acc rest
    simp only [List.cons_append, splitWSAux, List.append_eq]
    rw [hws c (List.mem_cons_self _ _)]
    simp only [Bool.false_eq_true, if_false]
    rw [ih (fun a ha => hws a (List.mem_cons_of_mem _ ha)) (c :: acc) rest]
    congr 1
    simp

theorem splitWS_render : ∀ (S : List Str), (∀ u ∈ S, good u) → splitWS (render S) = S := by
  intro S
  induction S with
  | nil => intro _; rfl
  | cons s S' ih =>
    intro hg
    have hs : good s := hg s (List.mem_cons_self _ _)
    cases hS' : S' with
    | nil =>
      show splitWSAux [] (render [s]) = [s]
      rw [show render [s] = s from rfl]
      have h1 : splitWSAux [] (s ++ []) = splitWSAux (s.reverse ++ []) [] :=
        splitWSAux_through s hs.2 [] []
      rw [List.append_nil, List.append_nil] at h1
      rw [h1]
      simp only [splitWSAux]
      rw [if_neg (by
        intro hc
        exact hs.1 (by simpa using congrArg List.reverse hc))]
      rw [List.reverse_reverse]
    | cons s2 rest =>
      rw [← hS']
      have hS'ne : S' ≠ [] := by rw [hS']; exact List.cons_ne_nil _ _
      show splitWSAux [] (render (s :: S')) = s :: S'
      rw [render_cons_of_ne s S' hS'ne]
      rw [splitWSAux_through s hs.2 [] (' ' :: render S')]
      rw [List.append_nil]
      simp only [splitWSAux]
      rw [show (' ' : Char).isWhitespace = true from by decide]
      rw [if_pos rfl]
      rw [if_neg (by
        intro hc
        exact hs.1 (by simpa using congrArg List.reverse hc))]
      rw [List.reverse_reverse]
      rw [show splitWSAux [] (render S') = splitWS (render S') from rfl]
      rw [ih (fun u hu => hg u (List.mem_cons_of_mem _ hu))]

theorem flatten_map_singleton (w : List Char) :
    (w.map (fun c => ([c] : Str))).flatten = w := by
  induction w with
  | nil => rfl
  | cons c w' ih => simp [ih]

theorem concat_wordRep (w : Str) : concatSyms (wordRep w) = w ++ EOWsym := by
  show ((w.map (fun c => ([c] : Str))) ++ [EOWsym]).flatten = w ++ EOWsym
  rw [List.flatten_append, flatten_map_singleton]
  rfl

theorem mem_of_adjPairs :
    ∀ (S : List Str) (a b : Str), (a, b) ∈ adjPairs S → a ∈ S ∧ b ∈ S := by
  intro S
  induction S with
  | nil => intro a b h; exact absurd h (List.not_mem_nil _)
  | cons s rest ih =>
    intro a b h
    cases rest with
    | nil => exact absurd h (List.not_mem_nil _)
    | cons s2 r2 =>
      simp only [adjPairs] at h
      rcases List.mem_cons.mp h with he | hr
      · have ha : a = s := congrArg Prod.fst he
        have hb : b = s2 := congrArg Prod.snd he
        subst ha; subst hb
        exact ⟨List.mem_cons_self _ _, List.mem_cons_of_mem _ (List.mem_cons_self _ _)⟩
      · obtain ⟨h1, h2⟩ := ih a b hr
        exact ⟨List.mem_cons_of_mem _ h1, List.mem_cons_of_mem _ h2⟩

/-! ## Key and value shape of `defaultdict` accumulation -/

theorem addCount_entry_cases {K : Type} [DecidableEq K] (k : K) (n : Nat) :
    ∀ (d : List (K × Nat)) (pr : K × Nat), pr ∈ addCount k n d →
      pr ∈ d ∨ (pr.1 = k ∧ n ≤ pr.2) := by
  intro d
  induction d with
  | nil =>
    intro pr h
    simp only [addCount, List.mem_singleton] at h
    subst h
    exact Or.inr ⟨rfl, le_refl n⟩
  | cons e rest ih =>
    intro pr h
    obtain ⟨k0, v0⟩ := e
    simp only [addCount] at h
    by_cases hk : k = k0
    · rw [if_pos hk] at h
      rcases List.mem_cons.mp h with he | hr
      · subst he
        exact Or.inr ⟨hk.symm, by omega⟩
      · exact Or.inl (List.mem_cons_of_mem _ hr)
    · rw [if_neg hk] at h
      rcases List.mem_cons.mp h with he | hr
      · subst he
        exact Or.inl (List.mem_cons_self _ _)
      · rcases ih pr hr with h1 | h2
        · exact Or.inl (List.mem_cons_of_mem _ h1)
        · exact Or.inr h2

theorem foldl_addCount_entry {K : Type} [DecidableEq K] (f : K → K) :
    ∀ (es : List (K × Nat)) (init : List (K × Nat)) (pr : K × Nat),
      pr ∈ es.foldl (fun acc e => addCount (f e.1) e.2 acc) init →
      pr ∈ init ∨ ∃ e ∈ es, pr.1 = f e.1 ∧ e.2 ≤ pr.2 := by
  intro es
  induction es with
  | nil => intro init pr h; exact Or.inl h
  | cons e rest ih =>
    intro init pr h
    simp only [List.foldl_cons] at h
    rcases ih (addCount (f e.1) e.2 init) pr h with hin | hex
    · rcases addCount_entry_cases (f e.1) e.2 init pr hin with h1 | h2
      · exact Or.inl h1
      · exact Or.inr ⟨e, List.mem_cons_self _ _, h2.1, h2.2⟩
    · obtain ⟨e', he', hp⟩ := hex
      exact Or.inr ⟨e', List.mem_cons_of_mem _ he', hp⟩

/-! ## Properties of the symbol-level replacement -/

theorem subPair_render (A B : Str) (hA : good A) (hB : good B)
    (S : List Str) (hS : ∀ u ∈ S, good u) :
    subPair A B (render S) = render (replaceRun [A, B] (A ++ B) S) := by
  have hPg : ∀ u ∈ ([A, B] : List Str), good u := by
    intro u hu
    rcases List.mem_cons.mp hu with h | h
    · rw [h]; exact hA
    · rw [List.mem_singleton.mp h]; exact hB
  have h := reSub_render S.length S (le_refl _) hS [A, B] hPg (by simp) (A ++ B)
  have hren : render [A, B] = A ++ ' ' :: B := rfl
  show reSubWS (A ++ ' ' :: B) (A ++ B) true (render S) = _
  rw [← hren]
  exact h

theorem replaceRun_length_le (q : Str) (qs : List Str) (r : Str) :
    ∀ (n : Nat) (S : List Str), S.length ≤ n →
      (replaceRunAux q qs r S).length ≤ S.length := by
  intro n
  induction n with
  | zero =>
    intro S hn
    have hS : S = [] := List.eq_nil_of_length_eq_zero (Nat.le_zero.mp hn)
    subst hS
    simp [replaceRunAux_nil]
  | succ n ih =>
    intro S hn
    cases S with
    | nil => simp [replaceRunAux_nil]
    | cons s rest =>
      simp only [List.length_cons] at hn
      rw [replaceRunAux_cons]
      split
      · simp only [List.length_cons]
        have := ih (rest.drop qs.length) (by simp only [List.length_drop]; omega)
        simp only [List.length_drop] at this ⊢
        omega
      · simp only [List.length_cons]
        have := ih rest (by omega)
        omega

theorem replaceRun_pair_length_lt (A B r : Str) :
    ∀ (n : Nat) (S : List Str), S.length ≤ n → (A, B) ∈ adjPairs S →
      (replaceRunAux A [B] r S).length < S.length := by
  intro n
  induction n with
  | zero =>
    intro S hn hmem
    have hS : S = [] := List.eq_nil_of_length_eq_zero (Nat.le_zero.mp hn)
    subst hS
    exact absurd hmem (List.not_mem_nil _)
  | succ n ih =>
    intro S hn hmem
    cases S with
    | nil => exact absurd hmem (List.not_mem_nil _)
    | cons s rest =>
      simp only [List.length_cons] at hn
      rw [replaceRunAux_cons]
      cases rest with
      | nil => exact absurd hmem (List.not_mem_nil _)
      | cons s2 rest2 =>
        by_cases hc : A = s ∧ ([B] : List Str).isPrefixOf (s2 :: rest2)
        · rw [if_pos hc]
          have hdrop : ((s2 :: rest2).drop ([B] : List Str).length) = rest2 := rfl
          rw [hdrop]
          have hle := replaceRun_length_le A [B] r rest2.length rest2 (le_refl _)
          simp only [List.length_cons]
          omega
        · rw [if_neg hc]
          simp only [adjPairs] at hmem
          rcases List.mem_cons.mp hmem with he | hr
          · exfalso
            apply hc
            have hA : A = s := congrArg Prod.fst he
            have hB : B = s2 := congrArg Prod.snd he
            refine ⟨hA, ?_⟩
            rw [hB]
            show (s2 == s2 && List.isPrefixOf [] rest2) = true
            simp [List.isPrefixOf]
          · have hlen := ih (s2 :: rest2) (by simpa using hn) hr
            simp only [List.length_cons] at hlen ⊢
            omega

theorem mem_replaceRun (q : Str) (qs : List Str) (r : Str) :
    ∀ (n : Nat) (S : List Str), S.length ≤ n →
      ∀ x ∈ replaceRunAux q qs r S, x = r ∨ x ∈ S := by
  intro n
  induction n with
  | zero =>
    intro S hn x hx
    have hS : S = [] := List.eq_nil_of_length_eq_zero (Nat.le_zero.mp hn)
    subst hS
    rw [replaceRunAux_nil] at hx
    exact absurd hx (List.not_mem_nil _)
  | succ n ih =>
    intro S hn x hx
    cases S with
    | nil =>
      rw [replaceRunAux_nil] at hx
      exact absurd hx (List.not_mem_nil _)
    | cons s rest =>
      simp only [List.length_cons] at hn
      rw [replaceRunAux_cons] at hx
      split at hx
      · rcases List.mem_cons.mp hx with he | hr
        · exact Or.inl he
        · rcases ih (rest.drop qs.length) (by simp only [List.length_drop]; omega) x hr with
            h1 | h2
          · exact Or.inl h1
          · exact Or.inr (List.mem_cons_of_mem _ (List.mem_of_mem_drop h2))
      · rcases List.mem_cons.mp hx with he | hr
        · exact Or.inr (he ▸ List.mem_cons_self _ _)
        · rcases ih rest (by omega) x hr with h1 | h2
          · exact Or.inl h1
          · exact Or.inr (List.mem_cons_of_mem _ h2)

theorem concat_replaceRun (q : Str) (qs : List Str) (r : Str)
    (hr : concatSyms (q :: qs) = r) :
    ∀ (n : Nat) (S : List Str), S.length ≤ n →
      concatSyms (replaceRunAux q qs r S) = concatSyms S := by
  intro n
  induction n with
  | zero =>
    intro S hn
    have hS : S = [] := List.eq_nil_of_length_eq_zero (Nat.le_zero.mp hn)
    subst hS
    rw [replaceRunAux_nil]
  | succ n ih =>
    intro S hn
    cases S with
    | nil => rw [replaceRunAux_nil]
    | cons s rest =>
      simp only [List.length_cons] at hn
      rw [replaceRunAux_cons]
      by_cases hc : q = s ∧ qs.isPrefixOf rest
      · rw [if_pos hc]
        obtain ⟨rest', hrest⟩ := List.isPrefixOf_iff_prefix.mp hc.2
        show r ++ concatSyms (replaceRunAux q qs r (rest.drop qs.length)) = _
        rw [ih (rest.drop qs.length) (by simp only [List.length_drop]; omega)]
        rw [← hrest, List.drop_left]
        show r ++ concatSyms rest' = concatSyms (s :: (qs ++ rest'))
        rw [← hr, ← hc.1]
        show (q ++ qs.flatten) ++ rest'.flatten = q ++ (qs ++ rest').flatten
        rw [List.flatten_append, List.append_assoc]
      · rw [if_neg hc]
        show s ++ concatSyms (replaceRunAux q qs r rest) = s ++ concatSyms rest
        rw [ih rest (by omega)]

/-! ## Well-formedness of reachable frequency tables -/

theorem goodWord_wordRep (w : Str) (hw : ∀ c ∈ w, c.isWhitespace = false) :
    ∀ u ∈ wordRep w, good u := by
  intro u hu
  rcases List.mem_append.mp hu with hm | hm
  · obtain ⟨c, hc, rfl⟩ := List.mem_map.mp hm
    exact ⟨List.cons_ne_nil _ _, by
      intro c' hc'
      rw [List.mem_singleton.mp hc']
      exact hw c hc⟩
  · rw [List.mem_singleton.mp hm]
    exact ⟨by decide, by decide⟩

theorem wfTable_initTable (ws : List Str)
    (hws : ∀ w ∈ ws, ∀ c ∈ w, c.isWhitespace = false) :
    wfTable ws (initTable ws) := by
  have haux : ∀ (l : List Str), (∀ w ∈ l, w ∈ ws) → ∀ (init : Table), wfTable ws init →
      wfTable ws (l.foldl (fun t w => addCount (render (wordRep w)) 1 t) init) := by
    intro l
    induction l with
    | nil => intro _ init hinit; exact hinit
    | cons w l' ih =>
      intro hl init hinit
      simp only [List.foldl_cons]
      apply ih (fun w' hw' => hl w' (List.mem_cons_of_mem _ hw'))
      intro e he
      rcases addCount_entry_cases (render (wordRep w)) 1 init e he with h1 | h2
      · exact hinit e h1
      · have hwin : w ∈ ws := hl w (List.mem_cons_self _ _)
        exact ⟨wordRep w, w, goodWord_wordRep w (hws w hwin), by simp [wordRep],
          h2.1, concat_wordRep w, hwin, h2.2⟩
  exact haux ws (fun w hw => hw) [] (fun e he => absurd he (List.not_mem_nil _))

theorem mem_insKeyDesc {β : Type} (key : β → Nat) (x : β) :
    ∀ (l : List β) (y : β), y ∈ insKeyDesc key x l → y = x ∨ y ∈ l := by
  intro l
  induction l with
  | nil =>
    intro y h
    exact Or.inl (List.mem_singleton.mp h)
  | cons z zs ih =>
    intro y h
    simp only [insKeyDesc] at h
    split at h
    · rcases List.mem_cons.mp h with h1 | h2
      · exact Or.inl h1
      · exact Or.inr h2
    · rcases List.mem_cons.mp h with h1 | h2
      · exact Or.inr (h1 ▸ List.mem_cons_self _ _)
      · rcases ih y h2 with h3 | h4
        · exact Or.inl h3
        · exact Or.inr (List.mem_cons_of_mem _ h4)

theorem mem_sortKeyDesc {β : Type} (key : β → Nat) :
    ∀ (l : List β) (y : β), y ∈ sortKeyDesc key l → y ∈ l := by
  intro l
  induction l with
  | nil => intro y h; exact absurd h (List.not_mem_nil _)
  | cons x xs ih =>
    intro y h
    simp only [sortKeyDesc] at h
    rcases mem_insKeyDesc key x (sortKeyDesc key xs) y h with h1 | h2
    · exact h1 ▸ List.mem_cons_self _ _
    · exact List.mem_cons_of_mem _ (ih y h2)

theorem mem_addCount_key {K : Type} [DecidableEq K] (k : K) (n : Nat) :
    ∀ (d : List (K × Nat)) (pr : K × Nat), pr ∈ addCount k n d →
      pr.1 = k ∨ pr ∈ d := by
  intro d pr h
  rcases addCount_entry_cases k n d pr h with h1 | h2
  · exact Or.inr h1
  · exact Or.inl h2.1

theorem countPairsRaw_key_mem :
    ∀ (t : Table) (pr : (Str × Str) × Nat), pr ∈ countPairsRaw t →
      ∃ e ∈ t, pr.1 ∈ adjPairs (splitWS e.1) := by
  have hinner : ∀ (ps : List (Str × Str)) (f : Nat) (init : List ((Str × Str) × Nat)) pr,
      pr ∈ ps.foldl (fun a p => addCount p f a) init → pr.1 ∈ ps ∨ pr ∈ init := by
    intro ps
    induction ps with
    | nil => intro f init pr h; exact Or.inr h
    | cons p ps' ih =>
      intro f init pr h
      simp only [List.foldl_cons] at h
      rcases ih f (addCount p f init) pr h with h1 | h2
      · exact Or.inl (List.mem_cons_of_mem _ h1)
      · rcases mem_addCount_key p f init pr h2 with h3 | h4
        · exact Or.inl (h3 ▸ List.mem_cons_self _ _)
        · exact Or.inr h4
  have houter : ∀ (es : Table) (init : List ((Str × Str) × Nat)) pr,
      pr ∈ es.foldl (fun acc e => (adjPairs (splitWS e.1)).foldl
        (fun a p => addCount p e.2 a) acc) init →
      (∃ e ∈ es, pr.1 ∈ adjPairs (splitWS e.1)) ∨ pr ∈ init := by
    intro es
    induction es with
    | nil => intro init pr h; exact Or.inr h
    | cons e es' ih =>
      intro init pr h
      simp only [List.foldl_cons] at h
      rcases ih _ pr h with h1 | h2
      · obtain ⟨e', he', hp⟩ := h1
        exact Or.inl ⟨e', List.mem_cons_of_mem _ he', hp⟩
      · rcases hinner (adjPairs (splitWS e.1)) e.2 init pr h2 with h3 | h4
        · exact Or.inl ⟨e, List.mem_cons_self _ _, h3⟩
        · exact Or.inr h4
  intro t pr h
  rcases houter t [] pr h with h1 | h2
  · exact h1
  · exact absurd h2 (List.not_mem_nil _)

theorem wfTable_performMerge (ws : List Str) (t : Table) (hwf : wfTable ws t)
    (A B : Str) (hA : good A) (hB : good B)
    (c : Nat) (rest : List ((Str × Str) × Nat)) :
    wfTable ws (performMerge t (((A, B), c) :: rest)).1 := by
  have haux : ∀ (es : Table), (∀ e ∈ es, wfEntry ws e) → ∀ (init : Table), wfTable ws init →
      wfTable ws (es.foldl (fun acc e => addCount (subPair A B e.1) e.2 acc) init) := by
    intro es
    induction es with
    | nil => intro _ init hinit; exact hinit
    | cons e es' ih =>
      intro hes init hinit
      simp only [List.foldl_cons]
      apply ih (fun e' he' => hes e' (List.mem_cons_of_mem _ he'))
      intro pr hpr
      rcases addCount_entry_cases (subPair A B e.1) e.2 init pr hpr with h1 | h2
      · exact hinit pr h1
      · obtain ⟨S, w, hSg, hSne, hkey, hconcat, hwin, hval⟩ := hes e (List.mem_cons_self _ _)
        refine ⟨replaceRun [A, B] (A ++ B) S, w, ?_, ?_, ?_, ?_, hwin, ?_⟩
        · intro u hu
          rcases mem_replaceRun A [B] (A ++ B) S.length S (le_refl _) u hu with h3 | h4
          · subst h3
            refine ⟨by
              intro hc
              exact hA.1 (List.append_eq_nil.mp hc).1, ?_⟩
            intro ch hch
            rcases List.mem_append.mp hch with h5 | h5
            · exact hA.2 ch h5
            · exact hB.2 ch h5
          · exact hSg u h4
        · exact replaceRun_ne_nil [A, B] (A ++ B) S hSne
        · rw [h2.1, hkey]
          exact subPair_render A B hA hB S hSg
        · show concatSyms (replaceRunAux A [B] (A ++ B) S) = w ++ EOWsym
          rw [concat_replaceRun A [B] (A ++ B) (by simp [concatSyms]) S.length S (le_refl _)]
          exact hconcat
        · omega
  exact haux t hwf [] (fun e he => absurd he (List.not_mem_nil _))

/-! ## Slot counting and termination of the merge loop -/

theorem slots_addCount_le (k : Str) (n : Nat) (d : Table) :
    slots (addCount k n d) ≤ slots d + (splitWS k).length := by
  induction d with
  | nil => simp [slots, addCount]
  | cons e rest ih =>
    obtain ⟨k0, v0⟩ := e
    by_cases h : k = k0
    · simp [slots, addCount, h]
    · simp only [addCount, if_neg h]
      simp only [slots, List.map_cons, List.sum_cons] at ih ⊢
      omega

theorem slots_foldl_le (f : Str → Str) :
    ∀ (es : Table) (init : Table),
      slots (es.foldl (fun acc e => addCount (f e.1) e.2 acc) init) ≤
        slots init + (es.map (fun e => (splitWS (f e.1)).length)).sum := by
  intro es
  induction es with
  | nil => intro init; simp
  | cons e es' ih =>
    intro init
    simp only [List.foldl_cons, List.map_cons, List.sum_cons]
    have h1 := ih (addCount (f e.1) e.2 init)
    have h2 := slots_addCount_le (f e.1) e.2 init
    omega

theorem two_le_of_mem_adjPairs :
    ∀ (S : List Str) (p : Str × Str), p ∈ adjPairs S → 2 ≤ S.length := by
  intro S p h
  match S with
  | [] => exact absurd h (List.not_mem_nil _)
  | [x] => exact absurd h (List.not_mem_nil _)
  | a :: b :: r => simp [List.length_cons]

theorem merge_step_facts (ws : List Str) (t : Table) (hwf : wfTable ws t)
    (hne : countPairs t ≠ []) :
    wfTable ws (performMerge t (countPairs t)).1 ∧
    slots (performMerge t (countPairs t)).1 < slots t ∧
    1 ≤ slots t := by
  cases hp : countPairs t with
  | nil => exact absurd hp hne
  | cons pr rest =>
    obtain ⟨⟨A, B⟩, c⟩ := pr
    have hraw : ((A, B), c) ∈ countPairsRaw t := by
      apply mem_sortKeyDesc (fun e => e.2) (countPairsRaw t)
      show ((A, B), c) ∈ countPairs t
      rw [hp]
      exact List.mem_cons_self _ _
    obtain ⟨e0, he0, hocc⟩ := countPairsRaw_key_mem t ((A, B), c) hraw
    obtain ⟨S0, w0, hS0g, hS0ne, hkey0, _, _, _⟩ := hwf e0 he0
    have hsplit0 : splitWS e0.1 = S0 := by rw [hkey0]; exact splitWS_render S0 hS0g
    have hoccS : (A, B) ∈ adjPairs S0 := by rw [← hsplit0]; exact hocc
    have hAB : A ∈ S0 ∧ B ∈ S0 := mem_of_adjPairs S0 A B hoccS
    have hA : good A := hS0g A hAB.1
    have hB : good B := hS0g B hAB.2
    have hgoodAB : good (A ++ B) := by
      refine ⟨fun hc => hA.1 (List.append_eq_nil.mp hc).1, ?_⟩
      intro ch hch
      rcases List.mem_append.mp hch with h5 | h5
      · exact hA.2 ch h5
      · exact hB.2 ch h5
    have hsplit : ∀ e ∈ t, splitWS (subPair A B e.1) =
        replaceRunAux A [B] (A ++ B) (splitWS e.1) := by
      intro e he
      obtain ⟨S, w, hSg, _, hkey, _, _, _⟩ := hwf e he
      rw [hkey, splitWS_render S hSg, subPair_render A B hA hB S hSg]
      have hgood' : ∀ u ∈ replaceRun [A, B] (A ++ B) S, good u := by
        intro u hu
        rcases mem_replaceRun A [B] (A ++ B) S.length S (le_refl _) u hu with h3 | h4
        · exact h3 ▸ hgoodAB
        · exact hSg u h4
      rw [splitWS_render _ hgood']
      rfl
    have hslots1 : 2 ≤ slots t := by
      have h2 : 2 ≤ (splitWS e0.1).length := by
        rw [hsplit0]
        exact two_le_of_mem_adjPairs S0 (A, B) hoccS
      have hmem : (splitWS e0.1).length ∈ t.map (fun e => (splitWS e.1).length) :=
        List.mem_map.mpr ⟨e0, he0, rfl⟩
      have := List.single_le_sum (fun x _ => Nat.zero_le x) _ hmem
      show 2 ≤ (t.map (fun e => (splitWS e.1).length)).sum
      omega
    refine ⟨?_, ?_, by omega⟩
    · exact wfTable_performMerge ws t hwf A B hA hB c rest
    · show slots (t.foldl (fun acc e => addCount (subPair A B e.1) e.2 acc) []) < slots t
      have hle := slots_foldl_le (subPair A B) t []
      have hsum : (t.map (fun e => (splitWS (subPair A B e.1)).length)).sum <
          (t.map (fun e => (splitWS e.1).length)).sum := by
        apply List.sum_lt_sum
        · intro e he
          rw [hsplit e he]
          exact replaceRun_length_le A [B] (A ++ B) (splitWS e.1).length _ (le_refl _)
        · refine ⟨e0, he0, ?_⟩
          rw [hsplit e0 he0]
          exact replaceRun_pair_length_lt A B (A ++ B) (splitWS e0.1).length _ (le_refl _)
            (hsplit0 ▸ hoccS)
      have hz : slots ([] : Table) = 0 := rfl
      show slots _ < (t.map (fun e => (splitWS e.1).length)).sum
      omega

theorem producibleAux_pairs_nil (t : Table) (h : countPairs t = []) :
    ∀ f, producibleAux f t = 0 := by
  intro f
  cases f with
  | zero => rfl
  | succ g =>
    simp only [producibleAux]
    rw [h]

theorem producibleAux_fuel (ws : List Str) :
    ∀ (n : Nat) (t : Table), wfTable ws t → slots t ≤ n →
      ∀ (f1 f2 : Nat), slots t ≤ f1 → slots t ≤ f2 →
        producibleAux f1 t = producibleAux f2 t := by
  intro n
  induction n with
  | zero =>
    intro t hwf hn f1 f2 _ _
    cases ht : t with
    | nil =>
      rw [producibleAux_pairs_nil [] rfl, producibleAux_pairs_nil [] rfl]
    | cons e t' =>
      exfalso
      obtain ⟨S, w, hSg, hSne, hkey, _, _, _⟩ := hwf e (ht ▸ List.mem_cons_self _ _)
      have h1 : 1 ≤ (splitWS e.1).length := by
        rw [hkey, splitWS_render S hSg]
        cases S with
        | nil => exact absurd rfl hSne
        | cons a b => simp
      have hmem : (splitWS e.1).length ∈ t.map (fun e => (splitWS e.1).length) := by
        rw [ht]
        exact List.mem_map.mpr ⟨e, List.mem_cons_self _ _, rfl⟩
      have := List.single_le_sum (fun x _ => Nat.zero_le x) _ hmem
      have hns : slots t = 0 := Nat.le_zero.mp hn
      have : (t.map (fun e => (splitWS e.1).length)).sum = 0 := hns
      omega
  | succ n ih =>
    intro t hwf hn f1 f2 h1 h2
    cases hp : countPairs t with
    | nil =>
      rw [producibleAux_pairs_nil t hp, producibleAux_pairs_nil t hp]
    | cons pr rest =>
      obtain ⟨hwf', hlt, hs1⟩ := merge_step_facts ws t hwf (by rw [hp]; simp)
      obtain ⟨g1, rfl⟩ : ∃ g1, f1 = g1 + 1 := ⟨f1 - 1, by omega⟩
      obtain ⟨g2, rfl⟩ : ∃ g2, f2 = g2 + 1 := ⟨f2 - 1, by omega⟩
      simp only [producibleAux]
      rw [hp]
      rw [hp] at hwf' hlt
      show producibleAux g1 (performMerge t (pr :: rest)).1 + 1 =
        producibleAux g2 (performMerge t (pr :: rest)).1 + 1
      congr 1
      exact ih (performMerge t (pr :: rest)).1 hwf' (by omega) g1 g2 (by omega) (by omega)

theorem producible_pairs_nil (t : Table) (h : countPairs t = []) : producible t = 0 :=
  producibleAux_pairs_nil t h (slots t)

theorem producible_step (ws : List Str) (t : Table) (hwf : wfTable ws t)
    (hne : countPairs t ≠ []) :
    producible t = producible (performMerge t (countPairs t)).1 + 1 := by
  obtain ⟨hwf', hlt, hs1⟩ := merge_step_facts ws t hwf hne
  cases hp : countPairs t with
  | nil => exact absurd hp hne
  | cons pr rest =>
    rw [hp] at hwf' hlt
    show producibleAux (slots t) t = _
    obtain ⟨m, hm⟩ : ∃ m, slots t = m + 1 := ⟨slots t - 1, by omega⟩
    rw [hm]
    simp only [producibleAux]
    rw [hp]
    show producibleAux m (performMerge t (pr :: rest)).1 + 1 =
      producible (performMerge t (pr :: rest)).1 + 1
    congr 1
    show producibleAux m (performMerge t (pr :: rest)).1 =
      producibleAux (slots (performMerge t (pr :: rest)).1) (performMerge t (pr :: rest)).1
    exact producibleAux_fuel ws m (performMerge t (pr :: rest)).1 hwf' (by omega)
      m (slots (performMerge t (pr :: rest)).1) (by omega) (le_refl _)

theorem bpeStep_pairs_nil (t : Table) (syms : List Str) (h : countPairs t = []) :
    bpeStep (t, syms) = (t, syms) := by
  simp only [bpeStep, h]
  rfl

theorem bpeStep_pairs_cons (t : Table) (syms : List Str)
    (pr : (Str × Str) × Nat) (rest : List ((Str × Str) × Nat))
    (h : countPairs t = pr :: rest) :
    bpeStep (t, syms) =
      ((performMerge t (pr :: rest)).1, syms ++ [pr.1.1 ++ pr.1.2]) := by
  obtain ⟨⟨A, B⟩, c⟩ := pr
  simp only [bpeStep, h]
  rfl

theorem iterBPE_plateau (t : Table) (h : countPairs t = []) :
    ∀ (n : Nat) (syms : List Str), iterBPE n (t, syms) = (t, syms) := by
  intro n
  induction n with
  | zero => intro syms; rfl
  | succ n ih =>
    intro syms
    show iterBPE n (bpeStep (t, syms)) = (t, syms)
    rw [bpeStep_pairs_nil t syms h]
    exact ih syms

theorem iterBPE_count (ws : List Str) :
    ∀ (n : Nat) (t : Table) (syms : List Str), wfTable ws t →
      (iterBPE n (t, syms)).2.length = syms.length + min n (producible t) := by
  intro n
  induction n with
  | zero => intro t syms _; simp [iterBPE]
  | succ n ih =>
    intro t syms hwf
    cases hp : countPairs t with
    | nil =>
      rw [iterBPE_plateau t hp]
      rw [producible_pairs_nil t hp]
      simp
    | cons pr rest =>
      obtain ⟨hwf', _, _⟩ := merge_step_facts ws t hwf (by rw [hp]; simp)
      rw [hp] at hwf'
      show (iterBPE n (bpeStep (t, syms))).2.length = _
      rw [bpeStep_pairs_cons t syms pr rest hp]
      rw [ih (performMerge t (pr :: rest)).1 (syms ++ [pr.1.1 ++ pr.1.2]) hwf']
      have hstep : producible t = producible (performMerge t (pr :: rest)).1 + 1 := by
        have := producible_step ws t hwf (by rw [hp]; simp)
        rw [hp] at this
        exact this
      rw [hstep]
      simp only [List.length_append, List.length_cons, List.length_nil]
      omega

theorem iterBPE_stable (ws : List Str) :
    ∀ (n : Nat) (t : Table) (syms : List Str), wfTable ws t → producible t ≤ n →
      iterBPE n (t, syms) = iterBPE (producible t) (t, syms) := by
  intro n
  induction n with
  | zero =>
    intro t syms _ hn
    rw [Nat.le_zero.mp hn]
  | succ n ih =>
    intro t syms hwf hn
    cases hp : countPairs t with
    | nil =>
      rw [producible_pairs_nil t hp]
      exact iterBPE_plateau t hp (n + 1) syms
    | cons pr rest =>
      have hstep : producible t = producible (performMerge t (pr :: rest)).1 + 1 := by
        have := producible_step ws t hwf (by rw [hp]; simp)
        rw [hp] at this
        exact this
      obtain ⟨hwf', _, _⟩ := merge_step_facts ws t hwf (by rw [hp]; simp)
      rw [hp] at hwf'
      rw [hstep]
      show iterBPE n (bpeStep (t, syms)) = iterBPE (producible (performMerge t (pr :: rest)).1)
        (bpeStep (t, syms))
      rw [bpeStep_pairs_cons t syms pr rest hp]
      exact ih (performMerge t (pr :: rest)).1 (syms ++ [pr.1.1 ++ pr.1.2]) hwf' (by omega)

/-! ## Totality and unknown-fallback of `tokenize` -/

theorem applyVocab_some :
    ∀ (vs : List Str), (∀ tok ∈ vs, (replFor tok).isSome) →
      ∀ (w : List Char), ∃ w', applyVocab vs w = some w' := by
  intro vs
  induction vs with
  | nil => intro _ w; exact ⟨w, rfl⟩
  | cons tok vs' ih =>
    intro h w
    obtain ⟨r, hr⟩ := Option.isSome_iff_exists.mp (h tok (List.mem_cons_self _ _))
    have h1 : applyTok w tok = some (reSubWS (tokenPattern tok) r true w) := by
      simp [applyTok, hr]
    obtain ⟨w', hw'⟩ := ih (fun u hu => h u (List.mem_cons_of_mem _ hu))
      (reSubWS (tokenPattern tok) r true w)
    refine ⟨w', ?_⟩
    show (tok :: vs').foldlM applyTok w = some w'
    rw [List.foldlM_cons, h1]
    exact hw'

theorem zip_map_self {α β : Type} (f : α → β) :
    ∀ (l : List α), ∀ p ∈ l.zip (l.map f), p.2 = f p.1 := by
  intro l
  induction l with
  | nil => intro p hp; exact absurd hp (List.not_mem_nil _)
  | cons a l' ih =>
    intro p hp
    simp only [List.map_cons, List.zip_cons_cons] at hp
    rcases List.mem_cons.mp hp with he | hr
    · subst he; rfl
    · exact ih p hr

/-- C5: with a vocabulary whose `stoi` contains the reserved unknown
symbol (true of every trained vocabulary, which appends it) and whose
tokens process cleanly as `re.sub` replacement templates, `tokenize`
never fails: every resulting subword symbol that is not a `stoi` key is
replaced by `UNK_TOKEN` before id lookup, every final symbol resolves,
and each emitted id is its symbol's `stoi` entry. -/
theorem c5_unknown_fallback (V : List Str) (words : List Str)
    (hUNK : (dictGet UNKsym (stoiOf V)).isSome)
    (htoks : ∀ tok ∈ V, (replFor tok).isSome) :
    ∃ syms ids, tokenizeWords V words = some (syms, ids) ∧
      syms = ((words.map (fun w =>
          (applyVocab (sortKeyDesc List.length V) (render (wordRep w))).getD [])).map
            splitWS).flatten.map
        (fun s => if (dictGet s (stoiOf V)).isSome then s else UNKsym) ∧
      (∀ s ∈ syms, (dictGet s (stoiOf V)).isSome) ∧
      ∀ p ∈ syms.zip ids, dictGet p.1 (stoiOf V) = some p.2 := by
  have hsome : ∀ w ∈ words, (applyVocab (sortKeyDesc List.length V) (render (wordRep w))).isSome := by
    intro w _
    obtain ⟨w', hw'⟩ := applyVocab_some (sortKeyDesc List.length V)
      (fun tok ht => htoks tok (mem_sortKeyDesc _ _ _ ht)) (render (wordRep w))
    rw [hw']
    rfl
  have hmapM := mapM_some_of_forall
    (fun w => applyVocab (sortKeyDesc List.length V) (render (wordRep w))) [] words hsome
  have htoks2 : ∀ s ∈ ((words.map (fun w =>
      (applyVocab (sortKeyDesc List.length V) (render (wordRep w))).getD [])).map
        splitWS).flatten.map
      (fun s => if (dictGet s (stoiOf V)).isSome then s else UNKsym),
      (dictGet s (stoiOf V)).isSome := by
    intro s hs
    obtain ⟨s0, _, rfl⟩ := List.mem_map.mp hs
    by_cases hc : (dictGet s0 (stoiOf V)).isSome
    · rw [if_pos hc]
      exact hc
    · rw [if_neg hc]
      exact hUNK
  have hids := mapM_some_of_forall (fun s => dictGet s (stoiOf V)) 0 _ htoks2
  have hmain : tokenizeWords V words =
      some (((words.map (fun w =>
          (applyVocab (sortKeyDesc List.length V) (render (wordRep w))).getD [])).map
            splitWS).flatten.map
          (fun s => if (dictGet s (stoiOf V)).isSome then s else UNKsym),
        (((words.map (fun w =>
          (applyVocab (sortKeyDesc List.length V) (render (wordRep w))).getD [])).map
            splitWS).flatten.map
          (fun s => if (dictGet s (stoiOf V)).isSome then s else UNKsym)).map
          (fun s => (dictGet s (stoiOf V)).getD 0)) := by
    simp only [tokenizeWords, hmapM, hids]
  refine ⟨_, _, hmain, rfl, htoks2, ?_⟩
  · intro p hp
    have h2 := zip_map_self (fun s => (dictGet s (stoiOf V)).getD 0) _ p hp
    have h1 : p.1 ∈ ((words.map (fun w =>
        (applyVocab (sortKeyDesc List.length V) (render (wordRep w))).getD [])).map
          splitWS).flatten.map
        (fun s => if (dictGet s (stoiOf V)).isSome then s else UNKsym) :=
      (List.of_mem_zip hp).1
    obtain ⟨v, hv⟩ := Option.isSome_iff_exists.mp (htoks2 p.1 h1)
    have h2' : p.2 = (dictGet p.1 (stoiOf V)).getD 0 := h2
    rw [hv, h2', hv]
    rfl

theorem c5_unknown_fallback_witness :
    ∃ syms ids,
      tokenizeWords (trainVocabList [['a'], ['b'], EOWsym] [['a', 'b']] 0) [['a', 'c']] =
        some (syms, ids) ∧
      (∀ s ∈ syms, (dictGet s (stoiOf (trainVocabList [['a'], ['b'], EOWsym]
        [['a', 'b']] 0))).isSome) := by
  obtain ⟨syms, ids, hres, _, hall, _⟩ :=
    c5_unknown_fallback (trainVocabList [['a'], ['b'], EOWsym] [['a', 'b']] 0)
      [['a', 'c']] (by decide) (by decide)
  exact ⟨syms, ids, hres, hall⟩

/-! ## Occurrences of the end-of-word marker

"</w>" has no nontrivial border (no proper prefix equals a suffix), so an
occurrence of it can never start strictly inside a marker-free block. -/

theorem eow_no_early_match :
    ∀ (u rest : List Char), u ≠ [] → ¬ EOWsym <:+: u →
      ¬ (EOWsym <+: (u ++ (EOWsym ++ rest))) := by
  intro u rest hne hni hpre
  rw [show EOWsym = ['<', '/', 'w', '>'] from rfl] at hpre
  cases u with
  | nil => exact hne rfl
  | cons c1 u1 =>
    rw [List.cons_append, List.cons_prefix_cons] at hpre
    obtain ⟨hc1, hpre⟩ := hpre
    subst hc1
    cases u1 with
    | nil =>
      rw [List.nil_append] at hpre
      simp only [List.cons_append, List.nil_append, List.cons_prefix_cons] at hpre
      exact absurd hpre.1 (by decide)
    | cons c2 u2 =>
      rw [List.cons_append, List.cons_prefix_cons] at hpre
      obtain ⟨hc2, hpre⟩ := hpre
      subst hc2
      cases u2 with
      | nil =>
        rw [List.nil_append] at hpre
        simp only [List.cons_append, List.nil_append, List.cons_prefix_cons] at hpre
        exact absurd hpre.1 (by decide)
      | cons c3 u3 =>
        rw [List.cons_append, List.cons_prefix_cons] at hpre
        obtain ⟨hc3, hpre⟩ := hpre
        subst hc3
        cases u3 with
        | nil =>
          rw [List.nil_append] at hpre
          simp only [List.cons_append, List.nil_append, List.cons_prefix_cons] at hpre
          exact absurd hpre.1 (by decide)
        | cons c4 u4 =>
          rw [List.cons_append, List.cons_prefix_cons] at hpre
          obtain ⟨hc4, _⟩ := hpre
          subst hc4
          apply hni
          apply List.IsPrefix.isInfix
          rw [show EOWsym = ['<', '/', 'w', '>'] from rfl]
          exact List.prefix_append ['<', '/', 'w', '>'] u4

theorem splitFirst_cons (sep : List Char) (c : Char) (cs : List Char) :
    splitFirst sep (c :: cs) =
      if sep.isPrefixOf (c :: cs) then some ([], (c :: cs).drop sep.length)
      else (splitFirst sep cs).map (fun pr => (c :: pr.1, pr.2)) := rfl

theorem splitFirst_none (sep : List Char) :
    ∀ l, ¬ sep <:+: l → splitFirst sep l = none := by
  intro l
  induction l with
  | nil => intro _; rfl
  | cons c cs ih =>
    intro h
    rw [splitFirst_cons]
    have hb : sep.isPrefixOf (c :: cs) = false := by
      cases hbb : sep.isPrefixOf (c :: cs)
      · rfl
      · exact absurd (List.isPrefixOf_iff_prefix.mp hbb).isInfix h
    rw [hb, if_neg Bool.false_ne_true]
    rw [ih (fun hi => h (List.infix_cons hi))]
    rfl

theorem splitFirst_eow (pre rest : List Char) (h : ¬ EOWsym <:+: pre) :
    splitFirst EOWsym (pre ++ (EOWsym ++ rest)) = some (pre, rest) := by
  induction pre with
  | nil =>
    rw [List.nil_append]
    rw [show EOWsym ++ rest = '<' :: ('/' :: 'w' :: '>' :: rest) from rfl]
    rw [splitFirst_cons]
    have hp : EOWsym.isPrefixOf ('<' :: '/' :: 'w' :: '>' :: rest) = true := by
      rw [List.isPrefixOf_iff_prefix]
      exact ⟨rest, rfl⟩
    rw [hp, if_pos rfl]
    rfl
  | cons c pre' ih =>
    rw [List.cons_append, splitFirst_cons]
    have hnp := eow_no_early_match (c :: pre') rest (List.cons_ne_nil c pre') h
    rw [List.cons_append] at hnp
    have hb : EOWsym.isPrefixOf (c :: (pre' ++ (EOWsym ++ rest))) = false := by
      cases hbb : EOWsym.isPrefixOf (c :: (pre' ++ (EOWsym ++ rest)))
      · rfl
      · exact absurd (List.isPrefixOf_iff_prefix.mp hbb) hnp
    rw [hb, if_neg Bool.false_ne_true]
    rw [ih (fun hi => h (List.infix_cons hi))]
    rfl

theorem splitOnAux_eow (rest : List Char) :
    ∀ (u acc : List Char), ¬ EOWsym <:+: u →
      splitOnAux '<' ['/', 'w', '>'] acc (u ++ (EOWsym ++ rest)) =
        (acc.reverse ++ u) :: splitOnAux '<' ['/', 'w', '>'] [] rest := by
  intro u
  induction u with
  | nil =>
    intro acc _
    rw [List.nil_append]
    rw [show EOWsym ++ rest = '<' :: ('/' :: 'w' :: '>' :: rest) from rfl]
    rw [splitOnAux_cons]
    have hp : ('<' :: ['/', 'w', '>']).isPrefixOf ('<' :: '/' :: 'w' :: '>' :: rest) = true := by
      rw [List.isPrefixOf_iff_prefix]
      exact ⟨rest, rfl⟩
    rw [hp, if_pos rfl]
    show acc.reverse :: splitOnAux '<' ['/', 'w', '>'] [] rest = (acc.reverse ++ []) :: _
    rw [List.append_nil]
  | cons c u' ih =>
    intro acc h
    rw [List.cons_append, splitOnAux_cons]
    have hnp := eow_no_early_match (c :: u') rest (List.cons_ne_nil c u') h
    rw [List.cons_append] at hnp
    have hb : ('<' :: ['/', 'w', '>']).isPrefixOf (c :: (u' ++ (EOWsym ++ rest))) = false := by
      cases hbb : ('<' :: ['/', 'w', '>']).isPrefixOf (c :: (u' ++ (EOWsym ++ rest)))
      · rfl
      · exact absurd (List.isPrefixOf_iff_prefix.mp hbb) hnp
    rw [hb, if_neg Bool.false_ne_true]
    rw [ih (c :: acc) (fun hi => h (List.infix_cons hi))]
    simp only [List.reverse_cons, List.append_assoc, List.singleton_append]

theorem splitOnL_eow_flat :
    ∀ (xs : List Str), (∀ x ∈ xs, ¬ EOWsym <:+: x) →
      splitOnL EOWsym ((xs.map (fun x => x ++ EOWsym)).flatten) = xs ++ [[]] := by
  intro xs
  induction xs with
  | nil => intro _; rfl
  | cons x xs' ih =>
    intro h
    show splitOnAux '<' ['/', 'w', '>'] []
        (((x :: xs').map (fun x => x ++ EOWsym)).flatten) = _
    rw [List.map_cons, List.flatten_cons, List.append_assoc]
    rw [splitOnAux_eow _ x [] (h x (List.mem_cons_self x xs'))]
    rw [List.reverse_nil, List.nil_append]
    have ih' := ih (fun y hy => h y (List.mem_cons_of_mem x hy))
    show x :: splitOnL EOWsym ((xs'.map (fun x => x ++ EOWsym)).flatten) = _
    rw [ih', List.cons_append]

theorem eow_unique_occ :
    ∀ (a w b : List Char), ¬ EOWsym <:+: w →
      a ++ (EOWsym ++ b) = w ++ EOWsym → a = w ∧ b = [] := by
  intro a
  induction a with
  | nil =>
    intro w b hw heq
    rw [List.nil_append] at heq
    cases w with
    | nil =>
      rw [List.nil_append] at heq
      refine ⟨rfl, ?_⟩
      exact List.append_cancel_left (heq.trans (List.append_nil EOWsym).symm)
    | cons d w' =>
      exfalso
      apply eow_no_early_match (d :: w') [] (List.cons_ne_nil d w') hw
      rw [List.append_nil, ← heq]
      exact List.prefix_append EOWsym b
  | cons c a' ih =>
    intro w b hw heq
    cases w with
    | nil =>
      exfalso
      rw [List.nil_append] at heq
      have hlen := congrArg List.length heq
      simp only [EOWsym, List.cons_append, List.length_append, List.length_cons,
        List.length_nil] at hlen
      omega
    | cons d w' =>
      rw [List.cons_append, List.cons_append] at heq
      injection heq with hc htail
      obtain ⟨h1, h2⟩ := ih w' b (fun hi => hw (List.infix_cons hi)) htail
      exact ⟨by rw [hc, h1], h2⟩

theorem replProcess_cons_ne (c : Char) (rest : List Char) (h : c ≠ '\\') :
    replProcess (c :: rest) = (replProcess rest).map (fun r => c :: r) := by
  rw [replProcess.eq_def]
  split
  · rename_i heq
    exact absurd heq (List.cons_ne_nil c rest)
  · rename_i c' rest' heq
    injection heq with h1 h2
    subst h1
    subst h2
    rw [if_neg h]

theorem replProcess_no_backslash :
    ∀ (l : List Char), (∀ c ∈ l, c ≠ '\\') → replProcess l = some l := by
  intro l
  induction l with
  | nil => intro _; rfl
  | cons c rest ih =>
    intro h
    rw [replProcess_cons_ne c rest (h c (List.mem_cons_self c rest))]
    rw [ih (fun x hx => h x (List.mem_cons_of_mem c hx))]
    rfl

theorem mem_render :
    ∀ (P : List Str) (c : Char), c ∈ render P → c = ' ' ∨ ∃ s ∈ P, c ∈ s := by
  intro P
  induction P with
  | nil => intro c hc; exact absurd hc (List.not_mem_nil c)
  | cons s P' ih =>
    intro c hc
    cases P' with
    | nil => exact Or.inr ⟨s, List.mem_cons_self s [], hc⟩
    | cons s2 rest =>
      have hc' : c ∈ s ++ ' ' :: render (s2 :: rest) := hc
      rcases List.mem_append.mp hc' with h1 | h2
      · exact Or.inr ⟨s, List.mem_cons_self _ _, h1⟩
      · rcases List.mem_cons.mp h2 with he | hr
        · exact Or.inl he
        · rcases ih c hr with h' | ⟨u, hu, hcu⟩
          · exact Or.inl h'
          · exact Or.inr ⟨u, List.mem_cons_of_mem s hu, hcu⟩

theorem tokenPattern_spec (tok : Str) (hg : good tok) (hbs : '\\' ∉ tok)
    (hcase : ¬ EOWsym <:+: tok ∨ ∃ pre, tok = pre ++ EOWsym ∧ ¬ EOWsym <:+: pre) :
    ∃ P, P ≠ [] ∧ (∀ u ∈ P, good u) ∧ tokenPattern tok = render P ∧
      concatSyms P = tok ∧ replFor tok = some tok := by
  have hrepl : ∀ pat : List Str, tokenPattern tok = render pat →
      (∀ s ∈ pat, ∀ c ∈ s, c ∈ tok ∨ s = EOWsym) → replFor tok = some tok := by
    intro pat hpat hmem
    have hne : tokenPattern tok ≠ ['\\'] := by
      rw [hpat]
      intro habs
      have hmm : '\\' ∈ render pat := by
        rw [habs]; exact List.mem_cons_self _ _
      rcases mem_render pat '\\' hmm with hsp | ⟨s, hs, hcs⟩
      · exact absurd hsp (by decide)
      · rcases hmem s hs '\\' hcs with hin | hEOW
        · exact hbs hin
        · rw [hEOW] at hcs
          exact absurd hcs (by decide)
    rw [replFor, if_neg hne]
    rw [replProcess_no_backslash tok (fun c hc hce => hbs (hce ▸ hc))]
  rcases hcase with hfree | ⟨pre, hpre, hprefree⟩
  · refine ⟨tok.map (fun c => [c]), ?_, ?_, ?_, ?_, ?_⟩
    · intro hmapnil
      exact hg.1 (List.map_eq_nil_iff.mp hmapnil)
    · intro u hu
      obtain ⟨c, hc, rfl⟩ := List.mem_map.mp hu
      exact ⟨List.cons_ne_nil c [], fun x hx =>
        (List.mem_singleton.mp hx) ▸ hg.2 c hc⟩
    · rw [tokenPattern, splitFirst_none EOWsym tok hfree]
    · exact flatten_map_singleton tok
    · apply hrepl (tok.map (fun c => [c]))
      · rw [tokenPattern, splitFirst_none EOWsym tok hfree]
      · intro s hs c hc
        obtain ⟨c0, hc0, rfl⟩ := List.mem_map.mp hs
        exact Or.inl ((List.mem_singleton.mp hc) ▸ hc0)
  · have hsf : splitFirst EOWsym tok = some (pre, []) := by
      rw [hpre, ← List.append_nil EOWsym, ← List.append_assoc] at *
      rw [List.append_assoc]
      exact splitFirst_eow pre [] hprefree
    have hpremem : ∀ c ∈ pre, c ∈ tok := by
      intro c hc
      rw [hpre]
      exact List.mem_append_left EOWsym hc
    refine ⟨wordRep pre, ?_, ?_, ?_, ?_, ?_⟩
    · intro hnil
      have := congrArg List.length hnil
      simp only [wordRep, List.length_append, List.length_cons, List.length_nil,
        List.length_map] at this
      omega
    · intro u hu
      rcases List.mem_append.mp hu with h1 | h2
      · obtain ⟨c, hc, rfl⟩ := List.mem_map.mp h1
        exact ⟨List.cons_ne_nil c [], fun x hx =>
          (List.mem_singleton.mp hx) ▸ hg.2 c (hpremem c hc)⟩
      · rw [List.mem_singleton.mp h2]
        exact ⟨by decide, by decide⟩
    · rw [tokenPattern, hsf]
      rfl
    · rw [concat_wordRep, hpre]
    · apply hrepl (wordRep pre)
      · rw [tokenPattern, hsf]
        rfl
      · intro s hs c hc
        rcases List.mem_append.mp hs with h1 | h2
        · obtain ⟨c0, hc0, rfl⟩ := List.mem_map.mp h1
          exact Or.inl ((List.mem_singleton.mp hc) ▸ hpremem c0 hc0)
        · exact Or.inr (List.mem_singleton.mp h2)

/-! ## Classification of vocabulary tokens -/

theorem good_append (A B : Str) (hA : good A) (hB : good B) : good (A ++ B) := by
  refine ⟨fun hc => hA.1 (List.append_eq_nil.mp hc).1, ?_⟩
  intro ch hch
  rcases List.mem_append.mp hch with h | h
  · exact hA.2 ch h
  · exact hB.2 ch h

theorem infix_concat_of_mem :
    ∀ (S : List Str) (s : Str), s ∈ S → s <:+: concatSyms S := by
  intro S
  induction S with
  | nil => intro s h; exact absurd h (List.not_mem_nil s)
  | cons x S' ih =>
    intro s h
    rcases List.mem_cons.mp h with he | hm
    · subst he
      show s <:+: s ++ S'.flatten
      exact (List.prefix_append s S'.flatten).isInfix
    · obtain ⟨p, q, hpq⟩ := ih s hm
      refine ⟨x ++ p, q, ?_⟩
      show (x ++ p) ++ s ++ q = concatSyms (x :: S')
      rw [show concatSyms (x :: S') = x ++ concatSyms S' from rfl, ← hpq]
      simp only [List.append_assoc]

theorem adj_infix_concat :
    ∀ (S : List Str) (a b : Str), (a, b) ∈ adjPairs S → (a ++ b) <:+: concatSyms S := by
  intro S
  induction S with
  | nil => intro a b h; exact absurd h (List.not_mem_nil _)
  | cons x S' ih =>
    intro a b h
    cases S' with
    | nil => exact absurd h (List.not_mem_nil _)
    | cons y r =>
      have h' : (a, b) ∈ (x, y) :: adjPairs (y :: r) := h
      rcases List.mem_cons.mp h' with he | hm
      · have ha : a = x := congrArg Prod.fst he
        have hb : b = y := congrArg Prod.snd he
        subst ha
        subst hb
        refine ⟨[], r.flatten, ?_⟩
        show [] ++ (a ++ b) ++ r.flatten = concatSyms (a :: b :: r)
        rw [show concatSyms (a :: b :: r) = a ++ (b ++ r.flatten) from rfl]
        simp only [List.nil_append, List.append_assoc]
      · obtain ⟨p, q, hpq⟩ := ih a b hm
        refine ⟨x ++ p, q, ?_⟩
        show (x ++ p) ++ (a ++ b) ++ q = concatSyms (x :: y :: r)
        rw [show concatSyms (x :: y :: r) = x ++ concatSyms (y :: r) from rfl, ← hpq]
        simp only [List.append_assoc]

theorem mem_tokensOf :
    ∀ (t : Table) (u : Str), u ∈ tokensOf t ↔ ∃ e ∈ t, u ∈ splitWS e.1 := by
  have haux : ∀ (es : Table) (init : List Str) (u : Str),
      u ∈ es.foldl (fun acc e => acc ++ splitWS e.1) init ↔
        u ∈ init ∨ ∃ e ∈ es, u ∈ splitWS e.1 := by
    intro es
    induction es with
    | nil =>
      intro init u
      simp only [List.foldl_nil]
      constructor
      · exact fun h => Or.inl h
      · intro h
        rcases h with h | ⟨e, he, _⟩
        · exact h
        · exact absurd he (List.not_mem_nil e)
    | cons e0 es' ih =>
      intro init u
      simp only [List.foldl_cons]
      rw [ih]
      constructor
      · intro h
        rcases h with h | ⟨e, he, hu⟩
        · rcases List.mem_append.mp h with h1 | h2
          · exact Or.inl h1
          · exact Or.inr ⟨e0, List.mem_cons_self _ _, h2⟩
        · exact Or.inr ⟨e, List.mem_cons_of_mem _ he, hu⟩
      · intro h
        rcases h with h | ⟨e, he, hu⟩
        · exact Or.inl (List.mem_append_left _ h)
        · rcases List.mem_cons.mp he with he0 | he'
          · exact Or.inl (List.mem_append_right _ (he0 ▸ hu))
          · exact Or.inr ⟨e, he', hu⟩
  intro t u
  rw [show tokensOf t = t.foldl (fun acc e => acc ++ splitWS e.1) [] from rfl, haux]
  constructor
  · intro h
    rcases h with h | h
    · exact absurd h (List.not_mem_nil u)
    · exact h
  · exact fun h => Or.inr h

theorem tokensOf_spec (ws : List Str) (t : Table) (hwf : wfTable ws t) :
    ∀ u ∈ tokensOf t, good u ∧ ∃ w ∈ ws, u <:+: (w ++ EOWsym) := by
  intro u hu
  obtain ⟨e, he, hue⟩ := (mem_tokensOf t u).mp hu
  obtain ⟨S, w, hSg, _, hkey, hconc, hwmem, _⟩ := hwf e he
  rw [hkey, splitWS_render S hSg] at hue
  refine ⟨hSg u hue, w, hwmem, ?_⟩
  rw [← hconc]
  exact infix_concat_of_mem S u hue

theorem selectedPair_spec (ws : List Str) (t : Table) (hwf : wfTable ws t)
    (A B : Str) (c : Nat) (rest : List ((Str × Str) × Nat))
    (hp : countPairs t = ((A, B), c) :: rest) :
    good A ∧ good B ∧ ∃ w ∈ ws, (A ++ B) <:+: (w ++ EOWsym) := by
  have hraw : ((A, B), c) ∈ countPairsRaw t := by
    apply mem_sortKeyDesc (fun e => e.2) (countPairsRaw t)
    show ((A, B), c) ∈ countPairs t
    rw [hp]
    exact List.mem_cons_self _ _
  obtain ⟨e0, he0, hocc⟩ := countPairsRaw_key_mem t ((A, B), c) hraw
  obtain ⟨S0, w0, hS0g, _, hkey0, hconc0, hw0, _⟩ := hwf e0 he0
  have hsplit0 : splitWS e0.1 = S0 := by rw [hkey0]; exact splitWS_render S0 hS0g
  have hoccS : (A, B) ∈ adjPairs S0 := by rw [← hsplit0]; exact hocc
  have hAB := mem_of_adjPairs S0 A B hoccS
  refine ⟨hS0g A hAB.1, hS0g B hAB.2, w0, hw0, ?_⟩
  rw [← hconc0]
  exact adj_infix_concat S0 A B hoccS

theorem iterBPE_inv (ws : List Str) :
    ∀ (n : Nat) (t : Table) (acc : List Str), wfTable ws t →
      (∀ u ∈ acc, good u ∧ ∃ w ∈ ws, u <:+: (w ++ EOWsym)) →
      wfTable ws (iterBPE n (t, acc)).1 ∧
        ∀ u ∈ (iterBPE n (t, acc)).2, good u ∧ ∃ w ∈ ws, u <:+: (w ++ EOWsym) := by
  intro n
  induction n with
  | zero => intro t acc hwf hacc; exact ⟨hwf, hacc⟩
  | succ n ih =>
    intro t acc hwf hacc
    show wfTable ws (iterBPE n (bpeStep (t, acc))).1 ∧
      ∀ u ∈ (iterBPE n (bpeStep (t, acc))).2, good u ∧ ∃ w ∈ ws, u <:+: (w ++ EOWsym)
    cases hp : countPairs t with
    | nil =>
      rw [bpeStep_pairs_nil t acc hp]
      exact ih t acc hwf hacc
    | cons pr rest =>
      obtain ⟨⟨A, B⟩, c⟩ := pr
      obtain ⟨hA, hB, hinf⟩ := selectedPair_spec ws t hwf A B c rest hp
      have hstep : bpeStep (t, acc) = ((performMerge t (countPairs t)).1, acc ++ [A ++ B]) := by
        show ((performMerge t (countPairs t)).1, _) = _
        rw [hp]
        rfl
      rw [hstep, hp]
      apply ih
      · exact wfTable_performMerge ws t hwf A B hA hB c rest
      · intro u hu
        rcases List.mem_append.mp hu with h1 | h2
        · exact hacc u h1
        · rw [List.mem_singleton.mp h2]
          exact ⟨good_append A B hA hB, hinf⟩

theorem tok_props (ws : List Str) (hws : ∀ w ∈ ws, niceWord w) (u : Str)
    (hinf : ∃ w ∈ ws, u <:+: (w ++ EOWsym)) :
    '\\' ∉ u ∧ (¬ EOWsym <:+: u ∨ ∃ pre, u = pre ++ EOWsym ∧ ¬ EOWsym <:+: pre) := by
  obtain ⟨w, hw, hui⟩ := hinf
  obtain ⟨hgw, hbs, hEOW⟩ := hws w hw
  constructor
  · intro hbu
    rcases List.mem_append.mp (hui.subset hbu) with h | h
    · exact hbs h
    · exact absurd h (by decide)
  · by_cases hcase : EOWsym <:+: u
    · right
      obtain ⟨a, b, hab⟩ := hcase
      obtain ⟨s, t, hst⟩ := hui
      have hkey : (s ++ a) ++ (EOWsym ++ (b ++ t)) = w ++ EOWsym := by
        rw [← hst, ← hab]
        simp only [List.append_assoc]
      obtain ⟨hsa, hbt⟩ := eow_unique_occ (s ++ a) w (b ++ t) hEOW hkey
      have hb : b = [] := (List.append_eq_nil.mp hbt).1
      refine ⟨a, ?_, ?_⟩
      · rw [← hab, hb, List.append_nil]
      · intro hia
        apply hEOW
        have hainf : a <:+: w := ⟨s, [], by rw [List.append_nil]; exact hsa⟩
        exact hia.trans hainf
    · exact Or.inl hcase

theorem addCount_key_present {K : Type} [DecidableEq K] (k : K) (n : Nat) :
    ∀ (d : List (K × Nat)), ∃ e ∈ addCount k n d, e.1 = k := by
  intro d
  induction d with
  | nil => exact ⟨(k, n), List.mem_singleton.mpr rfl, rfl⟩
  | cons e0 rest ih =>
    obtain ⟨k0, v0⟩ := e0
    by_cases h : k = k0
    · exact ⟨(k0, v0 + n), by simp [addCount, h], h.symm⟩
    · obtain ⟨e, he, hek⟩ := ih
      refine ⟨e, ?_, hek⟩
      simp only [addCount, if_neg h]
      exact List.mem_cons_of_mem _ he

theorem addCount_key_preserved {K : Type} [DecidableEq K] (k : K) (n : Nat) :
    ∀ (d : List (K × Nat)) (k0 : K), (∃ e ∈ d, e.1 = k0) →
      ∃ e ∈ addCount k n d, e.1 = k0 := by
  intro d
  induction d with
  | nil =>
    intro k0 h
    obtain ⟨e, he, _⟩ := h
    exact absurd he (List.not_mem_nil e)
  | cons e0 rest ih =>
    obtain ⟨k1, v1⟩ := e0
    intro k0 h
    obtain ⟨e, he, hek⟩ := h
    by_cases hk : k = k1
    · rcases List.mem_cons.mp he with he1 | he2
      · refine ⟨(k1, v1 + n), by simp [addCount, hk], ?_⟩
        rw [← hek, he1]
      · refine ⟨e, ?_, hek⟩
        simp only [addCount, if_pos hk]
        exact List.mem_cons_of_mem _ he2
    · rcases List.mem_cons.mp he with he1 | he2
      · refine ⟨(k1, v1), ?_, by rw [← hek, he1]⟩
        simp only [addCount, if_neg hk]
        exact List.mem_cons_self _ _
      · obtain ⟨e', he', hek'⟩ := ih k0 ⟨e, he2, hek⟩
        refine ⟨e', ?_, hek'⟩
        simp only [addCount, if_neg hk]
        exact List.mem_cons_of_mem _ he'

theorem initTable_key_mem (ws : List Str) (x : Str) (hx : x ∈ ws) :
    ∃ e ∈ initTable ws, e.1 = render (wordRep x) := by
  have haux : ∀ (l : List Str) (init : Table),
      (x ∈ l ∨ ∃ e ∈ init, e.1 = render (wordRep x)) →
      ∃ e ∈ l.foldl (fun t w => addCount (render (wordRep w)) 1 t) init,
        e.1 = render (wordRep x) := by
    intro l
    induction l with
    | nil =>
      intro init h
      rcases h with h | h
      · exact absurd h (List.not_mem_nil x)
      · exact h
    | cons w l' ih =>
      intro init h
      simp only [List.foldl_cons]
      apply ih
      rcases h with h | h
      · rcases List.mem_cons.mp h with he | hm
        · refine Or.inr ?_
          rw [← he]
          exact addCount_key_present (render (wordRep x)) 1 init
        · exact Or.inl hm
      · exact Or.inr (addCount_key_preserved (render (wordRep w)) 1 init _ h)
  exact haux ws [] (Or.inl hx)

theorem base_sym_mem_tokensOf (ws : List Str) (hws : ∀ w ∈ ws, goodWord w)
    (x : Str) (hx : x ∈ ws) :
    ∀ u ∈ wordRep x, u ∈ tokensOf (initTable ws) := by
  intro u hu
  obtain ⟨e, he, hkey⟩ := initTable_key_mem ws x hx
  apply (mem_tokensOf _ u).mpr
  refine ⟨e, he, ?_⟩
  rw [hkey, splitWS_render _ (goodWord_wordRep x (hws x hx).2)]
  exact hu

theorem dictGet_foldSet_isSome {K W : Type} [DecidableEq K] :
    ∀ (es : List (K × W)) (init : List (K × W)) (k : K),
      (∃ v, (k, v) ∈ es) →
      (dictGet k (es.foldl (fun d e => dictSet e.1 e.2 d) init)).isSome := by
  intro es
  induction es with
  | nil =>
    intro init k h
    obtain ⟨v, hv⟩ := h
    exact absurd hv (List.not_mem_nil _)
  | cons e0 rest ih =>
    intro init k h
    obtain ⟨v, hv⟩ := h
    simp only [List.foldl_cons]
    by_cases hr : ∃ v', (k, v') ∈ rest
    · exact ih _ k hr
    · rcases List.mem_cons.mp hv with he | hm
      · rw [dictGet_foldSet_notin rest k (fun v' hv' => hr ⟨v', hv'⟩) _]
        rw [← he]
        rw [dictGet_dictSet_self]
        rfl
      · exact absurd ⟨v, hm⟩ hr

theorem stoi_isSome_of_mem (V : List Str) (s : Str) (hs : s ∈ V) :
    (dictGet s (stoiOf V)).isSome := by
  rw [stoiOf_eq_foldl]
  apply dictGet_foldSet_isSome
  obtain ⟨i, hi, hgi⟩ := List.mem_iff_getElem.mp hs
  refine ⟨i, List.mem_map.mpr ⟨i, List.mem_range.mpr hi, ?_⟩⟩
  rw [List.getD_eq_getElem V [] hi, hgi]

theorem itos_stoi_roundtrip (V : List Str) (s : Str) (i : Nat)
    (h : dictGet s (stoiOf V) = some i) :
    dictGet i (itosOf V) = some s := by
  rw [stoiOf_eq_foldl] at h
  rcases dictGet_foldSet_some _ [] s i h with hmem | hnone
  · obtain ⟨j, hj, hji⟩ := List.mem_map.mp hmem
    have hjeq : j = i := congrArg Prod.snd hji
    have hsv : V.getD j [] = s := congrArg Prod.fst hji
    subst hjeq
    rw [itosOf_get, if_pos (List.mem_range.mp hj), hsv]
  · simp [dictGet] at hnone

/-! ## The token loop of `tokenize` preserves word content -/

theorem applyVocab_inv (V : List Str)
    (hV : ∀ tok ∈ V, good tok ∧ '\\' ∉ tok ∧
      (¬ EOWsym <:+: tok ∨ ∃ pre, tok = pre ++ EOWsym ∧ ¬ EOWsym <:+: pre)) :
    ∀ (toks : List Str), (∀ tok ∈ toks, tok ∈ V) →
    ∀ (S : List Str), S ≠ [] → (∀ s ∈ S, good s) → (∀ s ∈ S, s ∈ V) →
      ∃ S', toks.foldlM applyTok (render S) = some (render S') ∧
        S' ≠ [] ∧ (∀ s ∈ S', good s) ∧ (∀ s ∈ S', s ∈ V) ∧
        concatSyms S' = concatSyms S := by
  intro toks
  induction toks with
  | nil =>
    intro _ S hne hg hm
    exact ⟨S, rfl, hne, hg, hm, rfl⟩
  | cons tok toks' ih =>
    intro htoks S hne hg hm
    have htokV := htoks tok (List.mem_cons_self _ _)
    obtain ⟨hgt, hbs, hcase⟩ := hV tok htokV
    obtain ⟨P, hPne, hPg, hpat, hPconc, hrepl⟩ := tokenPattern_spec tok hgt hbs hcase
    have happ : applyTok (render S) tok = some (render (replaceRun P tok S)) := by
      show (replFor tok).map (fun r => reSubWS (tokenPattern tok) r true (render S)) = _
      rw [hrepl]
      show some (reSubWS (tokenPattern tok) tok true (render S)) = _
      rw [hpat, reSub_render S.length S (le_refl _) hg P hPg hPne tok]
    have hstep : (tok :: toks').foldlM applyTok (render S) =
        toks'.foldlM applyTok (render (replaceRun P tok S)) := by
      rw [List.foldlM_cons, happ]
      rfl
    have hS'ne : replaceRun P tok S ≠ [] := replaceRun_ne_nil P tok S hne
    have hS'g : ∀ s ∈ replaceRun P tok S, good s := by
      intro s hs
      cases P with
      | nil => exact hg s hs
      | cons q qs =>
        rcases mem_replaceRun q qs tok S.length S (le_refl _) s hs with h1 | h2
        · exact h1 ▸ hgt
        · exact hg s h2
    have hS'm : ∀ s ∈ replaceRun P tok S, s ∈ V := by
      intro s hs
      cases P with
      | nil => exact hm s hs
      | cons q qs =>
        rcases mem_replaceRun q qs tok S.length S (le_refl _) s hs with h1 | h2
        · exact h1 ▸ htokV
        · exact hm s h2
    have hS'c : concatSyms (replaceRun P tok S) = concatSyms S := by
      cases P with
      | nil => rfl
      | cons q qs => exact concat_replaceRun q qs tok hPconc S.length S (le_refl _)
    obtain ⟨S', h1, h2, h3, h4, h5⟩ := ih (fun u hu => htoks u (List.mem_cons_of_mem _ hu))
      (replaceRun P tok S) hS'ne hS'g hS'm
    refine ⟨S', ?_, h2, h3, h4, h5.trans hS'c⟩
    rw [hstep]
    exact h1

theorem trainVocab_spec (ws e : List Str) (n : Nat)
    (hws : ∀ w ∈ ws, niceWord w)
    (he : IsSetList (tokensOf (initTable ws)) e) :
    ∀ tok ∈ trainVocabList e ws n, good tok ∧ '\\' ∉ tok ∧
      (¬ EOWsym <:+: tok ∨ ∃ pre, tok = pre ++ EOWsym ∧ ¬ EOWsym <:+: pre) := by
  have hwf0 : wfTable ws (initTable ws) :=
    wfTable_initTable ws (fun w hw => ((hws w hw).1).2)
  have hiter := iterBPE_inv ws n (initTable ws) [] hwf0
    (fun u hu => absurd hu (List.not_mem_nil u))
  intro tok htok
  rcases List.mem_append.mp htok with h1 | h2
  · rcases List.mem_append.mp h1 with hbase | hts
    · obtain ⟨hgood, hinf⟩ :=
        tokensOf_spec ws (initTable ws) hwf0 tok (he.2.1 tok hbase)
      exact ⟨hgood, tok_props ws hws tok hinf⟩
    · obtain ⟨hgood, hinf⟩ := hiter.2 tok hts
      exact ⟨hgood, tok_props ws hws tok hinf⟩
  · rcases List.mem_cons.mp h2 with hU | h3
    · subst hU
      exact ⟨by decide, by decide, Or.inl (by decide)⟩
    · rw [List.mem_singleton.mp h3]
      exact ⟨by decide, by decide, Or.inl (by decide)⟩

theorem concat_flatten :
    ∀ (SS : List (List Str)), concatSyms SS.flatten = (SS.map concatSyms).flatten := by
  intro SS
  induction SS with
  | nil => rfl
  | cons S SS' ih =>
    show concatSyms (S ++ SS'.flatten) = concatSyms S ++ (SS'.map concatSyms).flatten
    rw [← ih]
    exact List.flatten_append S SS'.flatten

theorem mapM_applyVocab_inv (V sorted : List Str)
    (hV : ∀ tok ∈ V, good tok ∧ '\\' ∉ tok ∧
      (¬ EOWsym <:+: tok ∨ ∃ pre, tok = pre ++ EOWsym ∧ ¬ EOWsym <:+: pre))
    (hsorted : ∀ tok ∈ sorted, tok ∈ V) :
    ∀ (l : List Str), (∀ x ∈ l, goodWord x ∧ ∀ s ∈ wordRep x, s ∈ V) →
      ∃ SS : List (List Str),
        l.mapM (fun x => applyVocab sorted (render (wordRep x))) = some (SS.map render) ∧
        (∀ S ∈ SS, S ≠ [] ∧ (∀ s ∈ S, good s) ∧ ∀ s ∈ S, s ∈ V) ∧
        SS.map concatSyms = l.map (fun x => x ++ EOWsym) := by
  intro l
  induction l with
  | nil => exact fun _ => ⟨[], rfl, fun S hS => absurd hS (List.not_mem_nil S), rfl⟩
  | cons x l' ih =>
    intro hsub
    obtain ⟨hgx, hS0m⟩ := hsub x (List.mem_cons_self _ _)
    have hS0g : ∀ s ∈ wordRep x, good s := goodWord_wordRep x hgx.2
    have hS0ne : wordRep x ≠ [] := by
      intro hnil
      have := congrArg List.length hnil
      simp only [wordRep, List.length_append, List.length_map, List.length_cons,
        List.length_nil] at this
      omega
    obtain ⟨S', hfold, hne', hg', hm', hc'⟩ :=
      applyVocab_inv V hV sorted hsorted (wordRep x) hS0ne hS0g hS0m
    obtain ⟨SS, hmapM, hprops, hconc⟩ := ih (fun y hy => hsub y (List.mem_cons_of_mem _ hy))
    have happly : applyVocab sorted (render (wordRep x)) = some (render S') := hfold
    refine ⟨S' :: SS, ?_, ?_, ?_⟩
    · simp only [List.mapM_cons, happly, hmapM]
      rfl
    · intro S hS
      rcases List.mem_cons.mp hS with hS1 | hS2
      · exact hS1 ▸ ⟨hne', hg', hm'⟩
      · exact hprops S hS2
    · show concatSyms S' :: SS.map concatSyms = (x ++ EOWsym) :: l'.map (fun x => x ++ EOWsym)
      rw [hconc, hc', concat_wordRep]

/-- **C8.** (corrected form) For a corpus of nonempty, whitespace-free
words that contain no backslash and no embedded "</w>" substring, and any
nonempty text consisting of corpus words, encoding with the vocabulary
trained on that corpus (any base-set enumeration, any number of merges)
succeeds, and decoding the resulting ids yields exactly the corpus words
joined by single spaces plus one trailing space — the original text up to
whitespace normalization. -/
theorem c8_round_trip (ws e : List Str) (n : Nat) (xs : List Str)
    (hws : ∀ w ∈ ws, niceWord w)
    (he : IsSetList (tokensOf (initTable ws)) e)
    (hxs : ∀ x ∈ xs, x ∈ ws) (hne : xs ≠ []) :
    ∃ res : List Str × List Nat,
      tokenizeWords (trainVocabList e ws n) xs = some res ∧
      tokensToStr (itosOf (trainVocabList e ws n)) res.2 =
        some (render xs ++ [' ']) := by
  have hVspec := trainVocab_spec ws e n hws he
  have hsorted : ∀ tok ∈ sortKeyDesc List.length (trainVocabList e ws n),
      tok ∈ trainVocabList e ws n :=
    fun tok ht => mem_sortKeyDesc List.length _ tok ht
  have hwords : ∀ x ∈ xs, goodWord x ∧ ∀ s ∈ wordRep x, s ∈ trainVocabList e ws n := by
    intro x hx
    refine ⟨(hws x (hxs x hx)).1, ?_⟩
    intro s hs
    have h1 : s ∈ tokensOf (initTable ws) :=
      base_sym_mem_tokensOf ws (fun w hw => (hws w hw).1) x (hxs x hx) s hs
    exact List.mem_append_left _ (List.mem_append_left _ (he.2.2 s h1))
  obtain ⟨SS, hmapM, hprops, hconc⟩ :=
    mapM_applyVocab_inv (trainVocabList e ws n)
      (sortKeyDesc List.length (trainVocabList e ws n)) hVspec hsorted xs hwords
  have hsplitmap : (SS.map render).map splitWS = SS := by
    rw [List.map_map]
    have hpt : ∀ S ∈ SS, (splitWS ∘ render) S = id S := by
      intro S hS
      show splitWS (render S) = S
      exact splitWS_render S (hprops S hS).2.1
    rw [List.map_congr_left hpt, List.map_id]
  have htoksV : ∀ s ∈ SS.flatten, s ∈ trainVocabList e ws n := by
    intro s hs
    obtain ⟨S, hS, hsS⟩ := List.mem_flatten.mp hs
    exact (hprops S hS).2.2 s hsS
  have htoksSome : ∀ s ∈ SS.flatten,
      (dictGet s (stoiOf (trainVocabList e ws n))).isSome :=
    fun s hs => stoi_isSome_of_mem _ s (htoksV s hs)
  have htoks2 : SS.flatten.map
      (fun s => if (dictGet s (stoiOf (trainVocabList e ws n))).isSome then s
        else UNKsym) = SS.flatten := by
    have hpt : ∀ s ∈ SS.flatten,
        (if (dictGet s (stoiOf (trainVocabList e ws n))).isSome then s
          else UNKsym) = id s := by
      intro s hs
      show _ = s
      rw [if_pos (htoksSome s hs)]
    rw [List.map_congr_left hpt, List.map_id]
  have hids := mapM_some_of_forall
    (fun s => dictGet s (stoiOf (trainVocabList e ws n))) 0 SS.flatten htoksSome
  have hmain : tokenizeWords (trainVocabList e ws n) xs =
      some (SS.flatten, SS.flatten.map
        (fun s => (dictGet s (stoiOf (trainVocabList e ws n))).getD 0)) := by
    simp only [tokenizeWords, hmapM, hsplitmap, htoks2, hids]
  have hdec : ∀ s ∈ SS.flatten,
      dictGet ((dictGet s (stoiOf (trainVocabList e ws n))).getD 0)
        (itosOf (trainVocabList e ws n)) = some s := by
    intro s hs
    obtain ⟨i, hi⟩ := Option.isSome_iff_exists.mp (htoksSome s hs)
    rw [hi]
    exact itos_stoi_roundtrip (trainVocabList e ws n) s i hi
  have hmapM2 : (SS.flatten.map
      (fun s => (dictGet s (stoiOf (trainVocabList e ws n))).getD 0)).mapM
      (fun i => dictGet i (itosOf (trainVocabList e ws n))) = some SS.flatten := by
    have hsome2 : ∀ i ∈ SS.flatten.map
        (fun s => (dictGet s (stoiOf (trainVocabList e ws n))).getD 0),
        (dictGet i (itosOf (trainVocabList e ws n))).isSome := by
      intro i hi
      obtain ⟨s, hs, rfl⟩ := List.mem_map.mp hi
      rw [hdec s hs]
      rfl
    rw [mapM_some_of_forall _ [] _ hsome2]
    congr 1
    rw [List.map_map]
    have hpt : ∀ s ∈ SS.flatten, ((fun i =>
        (dictGet i (itosOf (trainVocabList e ws n))).getD []) ∘
        (fun s => (dictGet s (stoiOf (trainVocabList e ws n))).getD 0)) s = id s := by
      intro s hs
      show (dictGet ((dictGet s (stoiOf (trainVocabList e ws n))).getD 0)
        (itosOf (trainVocabList e ws n))).getD [] = s
      rw [hdec s hs]
      rfl
    rw [List.map_congr_left hpt, List.map_id]
  have hconcat : concatSyms SS.flatten = (xs.map (fun x => x ++ EOWsym)).flatten := by
    rw [concat_flatten, hconc]
  have hsplit : splitOnL EOWsym (concatSyms SS.flatten) = xs ++ [[]] := by
    rw [hconcat]
    exact splitOnL_eow_flat xs (fun x hx => (hws x (hxs x hx)).2.2)
  refine ⟨(SS.flatten, SS.flatten.map
    (fun s => (dictGet s (stoiOf (trainVocabList e ws n))).getD 0)), hmain, ?_⟩
  show tokensToStr (itosOf (trainVocabList e ws n)) (SS.flatten.map
    (fun s => (dictGet s (stoiOf (trainVocabList e ws n))).getD 0)) =
    some (render xs ++ [' '])
  simp only [tokensToStr, hmapM2]
  rw [hsplit, render_append_of_ne xs [[]] hne (List.cons_ne_nil _ _)]
  rfl

theorem c8_round_trip_witness :
    ∃ res : List Str × List Nat,
      tokenizeWords (trainVocabList [['a'], ['b'], EOWsym] [['a', 'b']] 1) [['a', 'b']] =
        some res ∧
      tokensToStr (itosOf (trainVocabList [['a'], ['b'], EOWsym] [['a', 'b']] 1)) res.2 =
        some (render [['a', 'b']] ++ [' ']) :=
  c8_round_trip [['a', 'b']] [['a'], ['b'], EOWsym] 1 [['a', 'b']]
    (by
      intro w hw
      rw [List.mem_singleton.mp hw]
      unfold niceWord goodWord
      refine ⟨⟨?_, ?_⟩, ?_, ?_⟩ <;> decide)
    (by unfold IsSetList; refine ⟨?_, ?_, ?_⟩ <;> decide)
    (by decide) (by decide)

/-- **C8 counterexample** to the claim as stated (round trip for every
text of corpus words): for the corpus consisting of the single word of
two backslashes and one merge, the learned merge token "\\" is used as a
`re.sub` replacement template, whose escape processing collapses it to a
single backslash; encoding then decoding the corpus word yields one
backslash instead of two — the decoded text differs from the original
even after whitespace normalization. -/
theorem c8_counterexample :
    IsSetList (tokensOf (initTable [['\\', '\\']])) [['\\'], EOWsym] ∧
    tokenizeWords (trainVocabList [['\\'], EOWsym] [['\\', '\\']] 1) [['\\', '\\']] =
      some ([['\\'], EOWsym], [0, 1]) ∧
    tokensToStr (itosOf (trainVocabList [['\\'], EOWsym] [['\\', '\\']] 1)) [0, 1] =
      some ['\\', ' '] ∧
    render [['\\', '\\']] ++ [' '] = ['\\', '\\', ' '] ∧
    ['\\', ' '].filter (fun c => !c.isWhitespace) ≠
      ['\\', '\\', ' '].filter (fun c => !c.isWhitespace) := by
  refine ⟨?_, ?_, ?_, ?_, ?_⟩
  · unfold IsSetList
    refine ⟨?_, ?_, ?_⟩ <;> decide
  · decide
  · decide
  · decide
  · decide

/-! ## The faithful merge substitution and its backslash-free reduction -/

theorem subPairM_eq_subPair (A B : Str) (hbs : ∀ c ∈ A ++ B, c ≠ '\\')
    (w : List Char) : subPairM A B w = some (subPair A B w) := by
  show (replProcess (A ++ B)).map (fun r => reSubWS (A ++ ' ' :: B) r true w) = _
  rw [replProcess_no_backslash (A ++ B) hbs]
  rfl

theorem foldlM_subPairM_eq (A B : Str) (hbs : ∀ c ∈ A ++ B, c ≠ '\\') :
    ∀ (t : Table) (init : Table),
      t.foldlM (fun acc e => (subPairM A B e.1).map (fun w' => addCount w' e.2 acc)) init =
        some (t.foldl (fun acc e => addCount (subPair A B e.1) e.2 acc) init) := by
  intro t
  induction t with
  | nil => intro init; rfl
  | cons e t' ih =>
    intro init
    simp only [List.foldlM_cons, List.foldl_cons]
    rw [subPairM_eq_subPair A B hbs]
    show t'.foldlM _ (addCount (subPair A B e.1) e.2 init) = _
    exact ih (addCount (subPair A B e.1) e.2 init)

theorem performMergeM_eq (ws : List Str) (t : Table) (hwf : wfTable ws t)
    (hbs : ∀ w ∈ ws, '\\' ∉ w) :
    performMergeM t (countPairs t) = some (performMerge t (countPairs t)) := by
  cases hp : countPairs t with
  | nil => rfl
  | cons pr rest =>
    obtain ⟨⟨A, B⟩, c⟩ := pr
    obtain ⟨hA, hB, hinf⟩ := selectedPair_spec ws t hwf A B c rest hp
    have hABbs : ∀ ch ∈ A ++ B, ch ≠ '\\' := by
      intro ch hch hbe
      subst hbe
      obtain ⟨w, hw, hABinf⟩ := hinf
      rcases List.mem_append.mp (hABinf.subset hch) with h | h
      · exact hbs w hw h
      · exact absurd h (by decide)
    show (t.foldlM (fun acc e => (subPairM A B e.1).map
      (fun w' => addCount w' e.2 acc)) []).map (fun t' => (t', some (A ++ B))) = _
    rw [foldlM_subPairM_eq A B hABbs t []]
    rfl

theorem bpeStepM_eq (ws : List Str) (t : Table) (acc : List Str) (hwf : wfTable ws t)
    (hbs : ∀ w ∈ ws, '\\' ∉ w) :
    bpeStepM (t, acc) = some (bpeStep (t, acc)) := by
  show (performMergeM t (countPairs t)).map _ = _
  rw [performMergeM_eq ws t hwf hbs]
  rfl

theorem iterBPEM_eq (ws : List Str) (hbs : ∀ w ∈ ws, '\\' ∉ w) :
    ∀ (n : Nat) (t : Table) (acc : List Str), wfTable ws t →
      iterBPEM n (t, acc) = some (iterBPE n (t, acc)) := by
  intro n
  induction n with
  | zero => intro t acc _; rfl
  | succ n ih =>
    intro t acc hwf
    show (match bpeStepM (t, acc) with
      | none => none
      | some st' => iterBPEM n st') = some (iterBPE n (bpeStep (t, acc)))
    rw [bpeStepM_eq ws t acc hwf hbs]
    show iterBPEM n (bpeStep (t, acc)) = some (iterBPE n (bpeStep (t, acc)))
    have hwf' : wfTable ws (performMerge t (countPairs t)).1 := by
      cases hp : countPairs t with
      | nil => exact hwf
      | cons pr rest =>
        rw [← hp]
        exact (merge_step_facts ws t hwf
          (by rw [hp]; exact List.cons_ne_nil pr rest)).1
    exact ih (bpeStep (t, acc)).1 (bpeStep (t, acc)).2 hwf'

theorem trainVocabListM_eq (e ws : List Str) (n : Nat)
    (hws : ∀ w ∈ ws, goodWord w ∧ '\\' ∉ w) :
    trainVocabListM e ws n = some (trainVocabList e ws n) := by
  show (iterBPEM n (initTable ws, [])).map _ = _
  rw [iterBPEM_eq ws (fun w hw => (hws w hw).2) n (initTable ws) []
    (wfTable_initTable ws (fun w hw => (hws w hw).1.2))]
  rfl

theorem tableSum_foldlM (A B : Str) :
    ∀ (t : Table) (init acc : Table),
      t.foldlM (fun acc e => (subPairM A B e.1).map (fun w' => addCount w' e.2 acc)) init =
        some acc → tableSum acc = tableSum init + tableSum t := by
  intro t
  induction t with
  | nil =>
    intro init acc h
    have hia : init = acc := Option.some.inj h
    subst hia
    simp [tableSum]
  | cons e t' ih =>
    intro init acc h
    simp only [List.foldlM_cons] at h
    cases hsub : subPairM A B e.1 with
    | none =>
      rw [hsub] at h
      exact absurd h (by simp)
    | some w' =>
      rw [hsub] at h
      have h' : t'.foldlM (fun acc e => (subPairM A B e.1).map
          (fun w' => addCount w' e.2 acc)) (addCount w' e.2 init) = some acc := h
      have := ih (addCount w' e.2 init) acc h'
      rw [tableSum_addCount] at this
      show tableSum acc = tableSum init + tableSum ((e.1, e.2) :: t')
      have ht : tableSum ((e.1, e.2) :: t') = e.2 + tableSum t' := by
        simp [tableSum]
      omega

/-- **C1.** (corrected form) For every backslash-free selected pair of
good symbols, `perform_merge`'s regex substitution — with the replacement
template processed as `re.sub` does — succeeds and replaces (A, B)
exactly where they occur as two whole, space-delimited adjacent symbols
of the word representation, with their concatenation, and nowhere else:
it coincides with the symbol-level adjacent-pair fusion `mergeAdjacent`
(so an occurrence of the concatenation inside a longer symbol such as
"del" is never rewritten).  For pairs containing a backslash the code
inserts the template-processed string instead of the concatenation, or
raises `re.error` (see `c1_counterexample`). -/
theorem c1_merge_boundary (A B : Str) (hA : good A) (hB : good B)
    (hbs : ∀ c ∈ A ++ B, c ≠ '\\')
    (S : List Str) (hS : ∀ u ∈ S, good u) :
    subPairM A B (render S) = some (render (mergeAdjacent A B S)) := by
  rw [subPairM_eq_subPair A B hbs (render S)]
  refine congrArg some ?_
  have hPg : ∀ u ∈ ([A, B] : List Str), good u := by
    intro u hu
    rcases List.mem_cons.mp hu with h | h
    · rw [h]; exact hA
    · rw [List.mem_singleton.mp h]; exact hB
  have h := reSub_render S.length S (le_refl _) hS [A, B] hPg (by simp) (A ++ B)
  rw [mergeAdjacent_eq_replaceRun A B S.length S (le_refl _)]
  have hren : render [A, B] = A ++ ' ' :: B := rfl
  show reSubWS (A ++ ' ' :: B) (A ++ B) true (render S) = _
  rw [← hren]
  exact h

theorem c1_merge_boundary_witness :
    subPairM ['e'] ['l'] ['d', 'e', 'l', ' ', '<', '/', 'w', '>'] =
      some ['d', 'e', 'l', ' ', '<', '/', 'w', '>'] ∧
    subPairM ['e'] ['l'] ['d', ' ', 'e', ' ', 'l', ' ', '<', '/', 'w', '>'] =
      some ['d', ' ', 'e', 'l', ' ', '<', '/', 'w', '>'] := by
  constructor
  · have h := c1_merge_boundary ['e'] ['l'] (by decide) (by decide) (by decide)
      [['d', 'e', 'l'], EOWsym] (by decide)
    exact h.trans (by decide)
  · have h := c1_merge_boundary ['e'] ['l'] (by decide) (by decide) (by decide)
      [['d'], ['e'], ['l'], EOWsym] (by decide)
    exact h.trans (by decide)

/-- **C1 counterexample** to the claim as stated: on the corpus word of
two backslashes the selected pair is ('\', '\'), and the merge does not
replace the two adjacent whole symbols with their concatenation — Python
escape-processes the replacement string "\\" as a template, collapsing it
to a single backslash, so the rewritten representation carries one
backslash where the claimed concatenation has two. -/
theorem c1_counterexample :
    (countPairs (initTable [['\\', '\\']])).head? = some ((['\\'], ['\\']), 1) ∧
    subPairM ['\\'] ['\\'] (render (wordRep ['\\', '\\'])) =
      some ['\\', ' ', '<', '/', 'w', '>'] ∧
    render (mergeAdjacent ['\\'] ['\\'] (wordRep ['\\', '\\'])) =
      ['\\', '\\', ' ', '<', '/', 'w', '>'] ∧
    (['\\', ' ', '<', '/', 'w', '>'] : List Char) ≠
      ['\\', '\\', ' ', '<', '/', 'w', '>'] := by
  refine ⟨?_, ?_, ?_, ?_⟩ <;> decide

/-- **C3.** (corrected form) Every merge step that completes preserves
total mass: whenever the faithful `perform_merge` returns a merged table
— i.e. no `re.error` is raised while template-processing the replacement
— the sum of occurrence counts over the new table equals the sum over
the old (each entry's full count is re-accumulated with `+=`).  When the
template is invalid the merge raises and no after-merge table exists at
all (see `c3_counterexample`). -/
theorem c3_merge_preserves_mass (t : Table) (pairs : List ((Str × Str) × Nat))
    (res : Table × Option Str) (h : performMergeM t pairs = some res) :
    tableSum res.1 = tableSum t := by
  cases pairs with
  | nil =>
    have hres : (t, (none : Option Str)) = res := Option.some.inj h
    rw [← hres]
  | cons pr rest =>
    obtain ⟨⟨A, B⟩, c⟩ := pr
    have hform : performMergeM t (((A, B), c) :: rest) =
        (t.foldlM (fun acc e => (subPairM A B e.1).map
          (fun w' => addCount w' e.2 acc)) []).map
          (fun t' => (t', some (A ++ B))) := rfl
    rw [hform] at h
    cases hf : t.foldlM (fun acc e => (subPairM A B e.1).map
        (fun w' => addCount w' e.2 acc)) [] with
    | none =>
      rw [hf] at h
      exact absurd h (by simp)
    | some t' =>
      rw [hf] at h
      have hres : (t', some (A ++ B)) = res := Option.some.inj h
      rw [← hres]
      show tableSum t' = tableSum t
      have hsum := tableSum_foldlM A B t [] t' hf
      simpa [tableSum] using hsum

theorem c3_merge_preserves_mass_witness :
    performMergeM (initTable [['a', 'b']]) (countPairs (initTable [['a', 'b']])) =
      some ([(['a', 'b', ' ', '<', '/', 'w', '>'], 1)], some ['a', 'b']) ∧
    tableSum [(['a', 'b', ' ', '<', '/', 'w', '>'], 1)] =
      tableSum (initTable [['a', 'b']]) := by
  constructor
  · decide
  · exact c3_merge_preserves_mass (initTable [['a', 'b']])
      (countPairs (initTable [['a', 'b']]))
      ([(['a', 'b', ' ', '<', '/', 'w', '>'], 1)], some ['a', 'b']) (by decide)

/-- **C3 counterexample** to the claim as stated: on the reachable
frequency table of the corpus word "(\" the selected pair is
('(', '\'), whose replacement string "(\" ends in a lone backslash — an
invalid `re.sub` template.  `perform_merge` raises `re.error` and
produces no merged table, so there is no after-merge sum to equal the
before-merge mass of 1. -/
theorem c3_counterexample :
    (countPairs (initTable [['(', '\\']])).head? = some ((['('], ['\\']), 1) ∧
    performMergeM (initTable [['(', '\\']])
      (countPairs (initTable [['(', '\\']])) = none ∧
    tableSum (initTable [['(', '\\']]) = 1 := by
  refine ⟨?_, ?_, ?_⟩ <;> decide

/-- **C6.** (corrected form) For corpora of nonempty, whitespace-free,
backslash-free words, training is total and terminates early: the
faithful `perform_BPE` never raises, the vocabulary list has exactly
base-count + min(num_merges, producible-merges) + 2 entries — hence at
most base-count + producible-merges + 2 — and any `num_merges` beyond
the number of producible merges yields exactly the same vocabulary as
requesting that number (the loop keeps running but records nothing).
On corpora with backslash words training can instead abort with
`re.error` (see `c6_counterexample`). -/
theorem c6_early_termination (e ws : List Str)
    (hws : ∀ w ∈ ws, goodWord w ∧ '\\' ∉ w) (n : Nat) :
    trainVocabListM e ws n = some (trainVocabList e ws n) ∧
    (trainVocabList e ws n).length =
      e.length + min n (producible (initTable ws)) + 2 ∧
    (trainVocabList e ws n).length ≤ e.length + producible (initTable ws) + 2 ∧
    (producible (initTable ws) ≤ n →
      trainVocabListM e ws n = trainVocabListM e ws (producible (initTable ws))) := by
  have hwf := wfTable_initTable ws (fun w hw => (hws w hw).1.2)
  have hcount := iterBPE_count ws n (initTable ws) [] hwf
  refine ⟨trainVocabListM_eq e ws n hws, ?_, ?_, ?_⟩
  · show (e ++ trainSyms ws n ++ [UNKsym, PADsym]).length = _
    simp only [List.length_append, List.length_cons, List.length_nil]
    show e.length + (iterBPE n (initTable ws, [])).2.length + (0 + 1 + 1) = _
    rw [hcount]
    simp
  · show (e ++ trainSyms ws n ++ [UNKsym, PADsym]).length ≤ _
    simp only [List.length_append, List.length_cons, List.length_nil]
    show e.length + (iterBPE n (initTable ws, [])).2.length + (0 + 1 + 1) ≤ _
    rw [hcount]
    simp only [List.length_nil]
    omega
  · intro hle
    rw [trainVocabListM_eq e ws n hws,
      trainVocabListM_eq e ws (producible (initTable ws)) hws]
    refine congrArg some ?_
    show e ++ trainSyms ws n ++ [UNKsym, PADsym] = _
    rw [show trainSyms ws n = (iterBPE n (initTable ws, [])).2 from rfl]
    rw [iterBPE_stable ws n (initTable ws) [] hwf hle]
    rfl

theorem c6_early_termination_witness :
    trainVocabListM [['a'], ['b'], EOWsym] [['a', 'b']] 10 =
      some (trainVocabList [['a'], ['b'], EOWsym] [['a', 'b']] 10) ∧
    (trainVocabList [['a'], ['b'], EOWsym] [['a', 'b']] 10).length ≤ 3 + 2 + 2 ∧
    trainVocabListM [['a'], ['b'], EOWsym] [['a', 'b']] 10 =
      trainVocabListM [['a'], ['b'], EOWsym] [['a', 'b']] 2 := by
  have h := c6_early_termination [['a'], ['b'], EOWsym] [['a', 'b']]
    (by
      intro w hw
      rw [List.mem_singleton.mp hw]
      unfold goodWord
      refine ⟨⟨?_, ?_⟩, ?_⟩ <;> decide) 10
  have hp : producible (initTable [['a', 'b']]) = 2 := by decide
  refine ⟨h.1, ?_, ?_⟩
  · have := h.2.2.1
    rw [hp] at this
    simpa using this
  · have := h.2.2.2 (by rw [hp]; omega)
    rw [hp] at this
    exact this

/-- **C6 counterexample** to the claim as stated ("terminates normally,
no error"): the corpus word "(\" admits 2 producible merges in the
error-free model, yet requesting num_merges = 3 (greater than the
producible count) makes real training crash at the very first merge —
the selected pair ('(', '\') has the invalid replacement template "(\"
(trailing backslash), `re.sub` raises `re.error`, and `perform_BPE`
aborts instead of terminating with a vocabulary. -/
theorem c6_counterexample :
    producible (initTable [['(', '\\']]) = 2 ∧
    trainVocabListM [['('], ['\\'], EOWsym] [['(', '\\']] 3 = none := by
  constructor <;> decide
